import Mathlib

/-!
Verification of the IndexStream-v2 search-engine core.

The Go source is shallowly embedded as follows.

* Go maps are modelled as association lists with unique keys (getA / lookA /
  setA / eraseA below); iteration order of a Go map is unspecified, the
  embedding fixes it to insertion order.
* Go float64 arithmetic is modelled over the rationals; the one transcendental
  operation, math.Log, is passed in as an abstract function lg so every
  statement holds for any interpretation of the logarithm.
* The snowball stemmer is a third-party library; it is passed in as an
  abstract function stem (the source keeps the unstemmed word when stemming
  fails, which is also covered by an arbitrary stem function).
* Real time (TTLs, expiry sweeps) and goroutine interleavings are outside the
  embedding: every run is a sequential sequence of operations and no cache
  item is expired.  Disk and network I/O are modelled by explicit oracles.
* Cache keys used by the program are exactly the strings doc:<id>, term:<t>
  and query:<q>, and every key is SHA-256 hashed (collisions impossible per
  the spec); the key space is therefore modelled as a tagged sum CKey.
-/

namespace IndexStream

/-- Go map read m[k] returning the zero value dflt when the key is absent. -/
def getA {κ α : Type} [DecidableEq κ] (m : List (κ × α)) (k : κ) (dflt : α) : α :=
  match m with
  | [] => dflt
  | (k1, v) :: rest => if k1 = k then v else getA rest k dflt

/-- Go comma-ok map read: v, ok := m[k]. -/
def lookA {κ α : Type} [DecidableEq κ] (m : List (κ × α)) (k : κ) : Option α :=
  match m with
  | [] => none
  | (k1, v) :: rest => if k1 = k then some v else lookA rest k

/-- Go map write m[k] = v: replaces the binding in place, or appends it. -/
def setA {κ α : Type} [DecidableEq κ] (m : List (κ × α)) (k : κ) (v : α) :
    List (κ × α) :=
  match m with
  | [] => [(k, v)]
  | (k1, v1) :: rest => if k1 = k then (k, v) :: rest else (k1, v1) :: setA rest k v

/-- Go delete(m, k). -/
def eraseA {κ α : Type} [DecidableEq κ] (m : List (κ × α)) (k : κ) : List (κ × α) :=
  match m with
  | [] => []
  | (k1, v1) :: rest => if k1 = k then rest else (k1, v1) :: eraseA rest k

/-- the key set of a Go map, in the order the embedding stores the bindings. -/
def keysA {κ α : Type} (m : List (κ × α)) : List κ :=
  m.map Prod.fst

/-- cache keys used by the program: doc:<id> (indexed documents),
term:<t> (term postings) and query:<q> (query results).  The three string
namespaces are disjoint and keys are SHA-256 hashed without collisions, so
they are modelled as a tagged sum. -/
inductive CKey : Type where
  | doc (id : String)
  | term (t : String)
  | query (q : String)
deriving DecidableEq

/-- the inverted index state of internal/service/indexer.go (struct Index).
The field index is the postings map term -> docID -> positions, docLen,
docFreq, docCount, sumDocLen and avgDL are as in the source; cache records
which keys are present in the multi-layer cache, which is all AddDocument
observes of it (Get hit or miss).  avgDL is float64 in Go, modelled as a
rational. -/
structure Index : Type where
  index : List (String × List (String × List Nat))
  docLen : List (String × Nat)
  docFreq : List (String × Nat)
  docCount : Nat
  sumDocLen : Nat
  avgDL : ℚ
  cache : List CKey
deriving DecidableEq

/-- the accumulator of the token loop in AddDocument: the postings map, the
document-frequency map and the seen set of terms already counted for this
document. -/
structure IngestAcc : Type where
  index : List (String × List (String × List Nat))
  docFreq : List (String × Nat)
  seen : List String
deriving DecidableEq

/-- one iteration of the token loop of AddDocument (indexer.go lines 102-114):
append pos to index[token][docID], and bump docFreq[token] once per document. -/
def addTok (docID : String) (acc : IngestAcc) (pt : Nat × String) : IngestAcc :=
  let pos := pt.1
  let token := pt.2
  let termMap := getA acc.index token []
  let index1 := setA acc.index token (setA termMap docID (getA termMap docID [] ++ [pos]))
  if token ∈ acc.seen then
    { index := index1, docFreq := acc.docFreq, seen := acc.seen }
  else
    { index := index1
      docFreq := setA acc.docFreq token (getA acc.docFreq token 0 + 1)
      seen := token :: acc.seen }

/-- AddDocument (indexer.go lines 78-149).  First the cache is consulted under
key doc:<docID> and a hit returns immediately; then a docID already in docLen
returns immediately; otherwise the document is indexed, the averages are
recomputed and the doc:<docID> key is stored in the cache.  Metadata
(docMeta, URLs, timestamps) is not index state and is not modelled. -/
def AddDocument (st : Index) (docID : String) (tokens : List String) : Index :=
  if CKey.doc docID ∈ st.cache then st
  else if (lookA st.docLen docID).isSome then st
  else
    let acc := tokens.enum.foldl (addTok docID) ⟨st.index, st.docFreq, []⟩
    let docCount1 := st.docCount + 1
    let sumDocLen1 := st.sumDocLen + tokens.length
    { index := acc.index
      docLen := setA st.docLen docID tokens.length
      docFreq := acc.docFreq
      docCount := docCount1
      sumDocLen := sumDocLen1
      avgDL := (sumDocLen1 : ℚ) / (docCount1 : ℚ)
      cache := CKey.doc docID :: st.cache }

/-- NewInvertedIndex: every map empty, counters zero (avgDL is the float64
zero value). -/
def emptyIndex : Index :=
  { index := [], docLen := [], docFreq := [], docCount := 0, sumDocLen := 0,
    avgDL := 0, cache := [] }

/-- a sequence of AddDocument calls, applied in order. -/
def ingest (st : Index) (calls : List (String × List String)) : Index :=
  calls.foldl (fun s c => AddDocument s c.1 c.2) st

/-- the calls of a sequence that carry the first occurrence of their docID;
starting from a fresh index these are exactly the calls that get indexed. -/
def firstCalls (seen : List String) : List (String × List String) → List (String × List String)
  | [] => []
  | c :: rest =>
      if c.1 ∈ seen then firstCalls seen rest
      else c :: firstCalls (c.1 :: seen) rest

/-- the 0-based offsets at which term t occurs in the token list, in order. -/
def offsetsOf (tokens : List String) (t : String) : List Nat :=
  (tokens.enum.filter (fun p => p.2 = t)).map Prod.fst

/-- Go strings.ToLower, modelled character-wise (the Lean library function is
not kernel-computable; character classes are the Lean Char predicates). -/
def toLowerS (s : String) : String :=
  String.mk (s.data.map Char.toLower)

/-- Go strings.TrimSpace: drop whitespace from both ends. -/
def trimS (s : String) : String :=
  String.mk (((s.data.dropWhile Char.isWhitespace).reverse.dropWhile
    Char.isWhitespace).reverse)

/-- Go strings.HasPrefix. -/
def isPrefixOfS (p s : String) : Bool :=
  p.data.isPrefixOf s.data

/-- the splitter behind Go strings.Fields: maximal whitespace-free runs, in
order, no empty pieces; cur accumulates the current run in reverse. -/
def fieldsCh (cur : List Char) : List Char → List (List Char)
  | [] => if cur = [] then [] else [cur.reverse]
  | c :: rest =>
      if c.isWhitespace then
        if cur = [] then fieldsCh [] rest else cur.reverse :: fieldsCh [] rest
      else fieldsCh (c :: cur) rest

/-- Go strings.Fields. -/
def fieldsS (s : String) : List String :=
  (fieldsCh [] s.data).map String.mk

/-- Tokenize (tokenizer.go lines 28-48): lowercase, keep letters, digits and
whitespace, split into whitespace-separated fields, stem each field. -/
def Tokenize (stem : String → String) (doc : String) : List String :=
  let lowered := toLowerS doc
  let cleanedDoc := String.mk (lowered.data.filter
    (fun c => c.isAlpha || c.isDigit || c.isWhitespace))
  let rawTokens := fieldsS cleanedDoc
  rawTokens.map stem

/-- tokenDeduper (tokenizer.go lines 15-26) builds a hash set and returns its
elements; the set iteration order is unspecified in Go and fixed here to
first-occurrence order. -/
def tokenDeduper (tokens : List String) : List String :=
  tokens.foldl (fun hs t => if t ∈ hs then hs else hs ++ [t]) []

/-- insertion into a Go set modelled as an ordered duplicate-free list. -/
def insKey (acc : List String) (d : String) : List String :=
  if d ∈ acc then acc else acc ++ [d]

def insKeys (acc : List String) (ds : List String) : List String :=
  ds.foldl insKey acc

/-- BM25 parameter k1 = 1.5 (indexer.go line 236). -/
def bmK1 : ℚ := 3 / 2

/-- BM25 parameter b = 0.75 (indexer.go line 236). -/
def bmB : ℚ := 3 / 4

/-- the candidate enumeration of performSearch (indexer.go lines 197-231)
with the term cache ignored: the union, in insertion order, of the posting
keys of each query term present in the index. -/
def candLoop (st : Index) (terms : List String) : List String :=
  terms.foldl (fun cs t =>
    match lookA st.index t with
    | none => cs
    | some p => insKeys cs (keysA p)) []

/-- the per-term per-document BM25 contribution of performSearch
(indexer.go line 254): idf * (tf*(k1+1)) / (tf + k1*(1-b+b*dl/avgdl)). -/
def contribTerm (idf : ℚ) (st : Index) (t d : String) : ℚ :=
  let tf : ℚ := ((getA (getA st.index t []) d []).length : Nat)
  let dl : ℚ := (getA st.docLen d 0 : Nat)
  idf * (tf * (bmK1 + 1)) / (tf + bmK1 * (1 - bmB + bmB * (dl / st.avgDL)))

/-- the inner candidate loop body of the BM25 accumulation (indexer.go lines
246-256): a candidate with zero term frequency is skipped, otherwise
scores[docID] += contribution. -/
def scoreTermDoc (idf : ℚ) (st : Index) (t : String) (sc : List (String × ℚ))
    (d : String) : List (String × ℚ) :=
  let tf : ℚ := ((getA (getA st.index t []) d []).length : Nat)
  if tf = 0 then sc
  else setA sc d (getA sc d 0 + contribTerm idf st t d)

/-- the per-term body of the BM25 accumulation (indexer.go lines 238-257):
a term with zero document frequency is skipped entirely, otherwise its idf is
computed and every candidate is scored. -/
def scoreTermAll (lg : ℚ → ℚ) (st : Index) (cands : List String)
    (scores : List (String × ℚ)) (t : String) : List (String × ℚ) :=
  let df : ℚ := (getA st.docFreq t 0 : Nat)
  if df = 0 then scores
  else
    cands.foldl
      (scoreTermDoc (lg (((st.docCount : ℚ) - df + 1 / 2) / (df + 1 / 2))) st t)
      scores

/-- the BM25 score accumulation of performSearch (indexer.go lines 234-257):
for each term with nonzero document frequency and each candidate with nonzero
term frequency, scores[docID] += idf * (tf*(k1+1)) / (tf + k1*(1-b+b*dl/avgdl))
where idf = lg((N-df+0.5)/(df+0.5)) and lg stands for math.Log. -/
def scoreLoop (lg : ℚ → ℚ) (st : Index) (terms cands : List String) :
    List (String × ℚ) :=
  terms.foldl (scoreTermAll lg st cands) []

/-- the idf of a term as performSearch computes it (indexer.go line 244). -/
def idfOf (lg : ℚ → ℚ) (st : Index) (t : String) : ℚ :=
  lg (((st.docCount : ℚ) - ((getA st.docFreq t 0 : Nat) : ℚ) + 1 / 2) /
    (((getA st.docFreq t 0 : Nat) : ℚ) + 1 / 2))

/-- the comparison sort.Slice uses in performSearch (descending score);
Go sort is not stable and tie order is unspecified, modelled by a
deterministic insertion sort under the same comparison. -/
def scoreRel (a b : String × ℚ) : Prop :=
  b.2 ≤ a.2

instance : DecidableRel scoreRel :=
  fun a b => inferInstanceAs (Decidable (b.2 ≤ a.2))

instance : IsTotal (String × ℚ) scoreRel :=
  ⟨fun a b => le_total b.2 a.2⟩

instance : IsTrans (String × ℚ) scoreRel :=
  ⟨fun _ _ _ h1 h2 => le_trans h2 h1⟩

/-- the BM25 score of the claim and of spec section 4.7: the sum over the
deduplicated query terms of the per-term contribution, where a term with
df = 0 is skipped and a term with tf = 0 contributes nothing. -/
def bm25Score (lg : ℚ → ℚ) (st : Index) (terms : List String) (d : String) : ℚ :=
  (terms.map (fun t =>
    let df : ℚ := (getA st.docFreq t 0 : Nat)
    if df = 0 then 0
    else
      let tf : ℚ := ((getA (getA st.index t []) d []).length : Nat)
      if tf = 0 then 0
      else
        lg (((st.docCount : ℚ) - df + 1 / 2) / (df + 1 / 2)) * (tf * (bmK1 + 1)) /
          (tf + bmK1 * (1 - bmB + bmB * (((getA st.docLen d 0 : Nat) : ℚ) / st.avgDL))))).sum

/-- cache payloads stored by the program: the document record stored by
AddDocument (only its token list is observable state), term postings stored
by performSearch, and query results stored by SetQueryResult (a SearchResult
is observable as its docID and score).  Go stores these as interface values
and recovers them by type assertion, modelled by matching on the variant. -/
inductive CPayload : Type where
  | doc (tokens : List String)
  | postings (p : List (String × List Nat))
  | query (rs : List (String × ℚ))
deriving DecidableEq

/-- the cache statistics counters (cache.go CacheStats). -/
structure CacheStats : Type where
  l1Hits : Nat
  l1Misses : Nat
  l2Hits : Nat
  l2Misses : Nat
  l3Hits : Nat
  l3Misses : Nat
  evictions : Nat
deriving DecidableEq

/-- the three cache tiers (cache.go MultiLayerCache).  Item metadata
(timestamps, hit counts) and TTL expiry depend on real time and are not
modelled: no item expires during the runs considered.  The L2 byte budget
and mtime-ordered eviction are likewise not modelled; an L2 entry is one
key-payload binding (one .cache file). -/
structure MultiLayerCache : Type where
  l1Cache : List (CKey × CPayload)
  l1Order : List CKey
  l1MaxSize : Nat
  l2Cache : List (CKey × CPayload)
  l3Cache : List (CKey × CPayload)
  stats : CacheStats
deriving DecidableEq

/-- removal of the first occurrence of a key from the LRU order list. -/
def eraseKey (l : List CKey) (k : CKey) : List CKey :=
  match l with
  | [] => []
  | x :: r => if x = k then r else x :: eraseKey r k

/-- moveToFront (cache.go lines 261-269): splice the key, when present, to
the front of the LRU order. -/
def moveToFront (order : List CKey) (k : CKey) : List CKey :=
  if k ∈ order then k :: eraseKey order k else order

namespace MultiLayerCache

/-- setToL1 (cache.go lines 222-247): drop the stale order entry, store the
item, prepend the key, and evict the least recently used key when over
capacity (evictFromL1, lines 249-259). -/
def setToL1 (c : MultiLayerCache) (k : CKey) (v : CPayload) : MultiLayerCache :=
  let order1 := if (lookA c.l1Cache k).isSome then eraseKey c.l1Order k else c.l1Order
  let l1a := setA c.l1Cache k v
  let order2 := k :: order1
  if c.l1MaxSize < l1a.length then
    match order2.getLast? with
    | none => { c with l1Cache := l1a, l1Order := order2 }
    | some oldest =>
        { c with l1Cache := eraseA l1a oldest
                 l1Order := order2.dropLast
                 stats := { c.stats with evictions := c.stats.evictions + 1 } }
  else { c with l1Cache := l1a, l1Order := order2 }

/-- setToL2 (cache.go lines 315-343) writes the serialized record to disk and
can fail on marshalling or writing; the failure is an oracle l2ok.  On
success the binding is stored, on failure the state is unchanged and an
error is returned. -/
def setToL2 (l2ok : Bool) (c : MultiLayerCache) (k : CKey) (v : CPayload) :
    MultiLayerCache × Option String :=
  if l2ok then ({ c with l2Cache := setA c.l2Cache k v }, none)
  else (c, some "failed to write cache file")

/-- setToL3 (cache.go lines 425-438). -/
def setToL3 (c : MultiLayerCache) (k : CKey) (v : CPayload) : MultiLayerCache :=
  { c with l3Cache := setA c.l3Cache k v }

/-- Get (cache.go lines 143-173): check L1, then L2, then L3, incrementing
the per-tier hit or miss counter, promoting an L2 hit to L1 and an L3 hit to
L1 and L2.  An L1 hit touches the item and moves its key to the front. -/
def Get (l2ok : Bool) (c : MultiLayerCache) (k : CKey) :
    Option CPayload × MultiLayerCache :=
  match lookA c.l1Cache k with
  | some v =>
      (some v, { c with l1Order := moveToFront c.l1Order k
                        stats := { c.stats with l1Hits := c.stats.l1Hits + 1 } })
  | none =>
      let c1 := { c with stats := { c.stats with l1Misses := c.stats.l1Misses + 1 } }
      match lookA c1.l2Cache k with
      | some v =>
          let c2 := { c1 with stats := { c1.stats with l2Hits := c1.stats.l2Hits + 1 } }
          (some v, setToL1 c2 k v)
      | none =>
          let c2 := { c1 with stats := { c1.stats with l2Misses := c1.stats.l2Misses + 1 } }
          match lookA c2.l3Cache k with
          | some v =>
              let c3 := { c2 with stats := { c2.stats with l3Hits := c2.stats.l3Hits + 1 } }
              (some v, (setToL2 l2ok (setToL1 c3 k v) k v).1)
          | none =>
              (none, { c2 with stats := { c2.stats with l3Misses := c2.stats.l3Misses + 1 } })

/-- Set (cache.go lines 176-188): always store in L1, then attempt L2; an L2
failure is only logged, and nil is returned unconditionally. -/
def Set (l2ok : Bool) (c : MultiLayerCache) (k : CKey) (v : CPayload) :
    MultiLayerCache × Option String :=
  let c1 := setToL1 c k v
  let c2 := (setToL2 l2ok c1 k v).1
  (c2, none)

/-- SetQueryResult (cache.go lines 191-199): store the result in L3 and also
in L1 for fast access. -/
def SetQueryResult (c : MultiLayerCache) (q : String) (rs : List (String × ℚ)) :
    MultiLayerCache :=
  let c1 := setToL3 c (CKey.query q) (CPayload.query rs)
  setToL1 c1 (CKey.query q) (CPayload.query rs)

/-- GetQueryResult (cache.go lines 202-205) checks all layers under the
query key. -/
def GetQueryResult (l2ok : Bool) (c : MultiLayerCache) (q : String) :
    Option CPayload × MultiLayerCache :=
  Get l2ok c (CKey.query q)

end MultiLayerCache

/-- a fresh multi-layer cache with the given L1 capacity and zeroed stats. -/
def emptyCache (l1Max : Nat) : MultiLayerCache :=
  { l1Cache := [], l1Order := [], l1MaxSize := l1Max, l2Cache := [], l3Cache := [],
    stats := ⟨0, 0, 0, 0, 0, 0, 0⟩ }

/-- one term of the candidate loop of performSearch (indexer.go lines
200-231): consult the cache under term:<t>; a hit whose payload is term
postings is used directly, any other outcome (miss, or a payload of another
shape, which fails the Go type assertion) falls back to the index, and a
found term is written back to the cache. -/
def candStep (l2ok : Bool) (st : Index) (a : List String × MultiLayerCache)
    (t : String) : List String × MultiLayerCache :=
  let fromIndex := fun (c1 : MultiLayerCache) =>
    match lookA st.index t with
    | none => (a.1, c1)
    | some p => (insKeys a.1 (keysA p), (c1.Set l2ok (CKey.term t) (CPayload.postings p)).1)
  match a.2.Get l2ok (CKey.term t) with
  | (some (CPayload.postings p), c1) => (insKeys a.1 (keysA p), c1)
  | (some (CPayload.doc _), c1) => fromIndex c1
  | (some (CPayload.query _), c1) => fromIndex c1
  | (none, c1) => fromIndex c1

/-- performSearch (indexer.go lines 190-292): tokenize and dedupe the query,
enumerate candidates (threading the term cache), accumulate BM25 scores from
the live index, sort descending by score, truncate to topK.  Result metadata
(url, title) and access-time updates are not index or cache state here. -/
def performSearch (lg : ℚ → ℚ) (stem : String → String) (l2ok : Bool) (st : Index)
    (c : MultiLayerCache) (query : String) (topK : Nat) :
    List (String × ℚ) × MultiLayerCache :=
  let terms := tokenDeduper (Tokenize stem query)
  let a := terms.foldl (candStep l2ok st) ([], c)
  let scores := scoreLoop lg st terms a.1
  (((List.insertionSort scoreRel scores).take topK), a.2)

/-- the miss path of Search: perform the search and cache the results under
the query key. -/
def searchMiss (lg : ℚ → ℚ) (stem : String → String) (l2ok : Bool) (st : Index)
    (c : MultiLayerCache) (query : String) (topK : Nat) :
    List (String × ℚ) × MultiLayerCache :=
  let r := performSearch lg stem l2ok st c query topK
  (r.1, r.2.SetQueryResult query r.1)

/-- Search (indexer.go lines 151-188): consult the query-result cache; a hit
whose payload is a query result is returned as is, any other payload fails
the Go type assertion and the search falls through to the miss path, which
performs the search and caches the results. -/
def Search (lg : ℚ → ℚ) (stem : String → String) (l2ok : Bool) (st : Index)
    (c : MultiLayerCache) (query : String) (topK : Nat) :
    List (String × ℚ) × MultiLayerCache :=
  match c.GetQueryResult l2ok query with
  | (some (CPayload.query rs), c1) => (rs, c1)
  | (some (CPayload.doc _), c1) => searchMiss lg stem l2ok st c1 query topK
  | (some (CPayload.postings _), c1) => searchMiss lg stem l2ok st c1 query topK
  | (none, c1) => searchMiss lg stem l2ok st c1 query topK

/-- the collection loop of SuggestSimilar: scan the index terms in order,
collect those that extend the query, and break as soon as maxN suggestions
have been collected. -/
def suggLoop (pq : String) (maxN : Nat) (acc : List String) :
    List String → List String
  | [] => acc
  | t :: rest =>
      if isPrefixOfS pq t ∧ t ≠ pq then
        let acc1 := acc ++ [t]
        if maxN ≤ acc1.length then acc1 else suggLoop pq maxN acc1 rest
      else suggLoop pq maxN acc rest

/-- the comparison of the suggestion sort: descending document frequency. -/
def freqRel (st : Index) (a b : String) : Prop :=
  getA st.docFreq b 0 ≤ getA st.docFreq a 0

instance (st : Index) : DecidableRel (freqRel st) :=
  fun a b => inferInstanceAs (Decidable (getA st.docFreq b 0 ≤ getA st.docFreq a 0))

instance (st : Index) : IsTotal String (freqRel st) :=
  ⟨fun a b => le_total (getA st.docFreq b 0) (getA st.docFreq a 0)⟩

instance (st : Index) : IsTrans String (freqRel st) :=
  ⟨fun _ _ _ h1 h2 => le_trans h2 h1⟩

/-- SuggestSimilar (search engine wrapper, lines 252-284): default a
non-positive maxSuggestions to 5, lowercase and trim the query, return empty
below two bytes, collect at most maxSuggestions matching terms (breaking
early), then sort the collected terms by document frequency descending.
Go string length is bytes, hence utf8ByteSize; the index map iteration order
is unspecified in Go and fixed here to insertion order. -/
def SuggestSimilar (st : Index) (query : String) (maxSuggestions : Int) : List String :=
  let maxN : Int := if maxSuggestions ≤ 0 then 5 else maxSuggestions
  let pq := toLowerS (trimS query)
  if pq.utf8ByteSize < 2 then []
  else
    let suggestions := suggLoop pq maxN.toNat [] (keysA st.index)
    List.insertionSort (freqRel st) suggestions

/-- the suggestion operation as the claim and spec section 4.7 word it: over
the indexed terms, filter by extending the query, sort all matches descending
by document frequency, and return the first maxN. -/
def specSuggest (st : Index) (query : String) (maxN : Nat) : List String :=
  let pq := toLowerS (trimS query)
  (List.insertionSort (freqRel st)
    ((keysA st.index).filter (fun t => isPrefixOfS pq t ∧ t ≠ pq))).take maxN

/-- the outcome of http.Get in Crawl: a transport error, or a response with
a status code and a body. -/
inductive HTTPResult : Type where
  | transportError (e : String)
  | response (status : Nat) (body : String)
deriving DecidableEq

/-- Crawl (crawler.go lines 114-150).  The err value returned by http.Get is
nil whenever a response arrives, so the non-200 branch returns the pair
(nil links, nil error) — the embedding keeps that stale nil faithfully.
Reading the body, hashing and storing the file, and link extraction are
modelled by oracles readErr, storeErr and extract. -/
def Crawl (r : HTTPResult) (readErr storeErr : Option String)
    (extract : Except String (List String)) :
    Option (List String) × Option String :=
  match r with
  | HTTPResult.transportError e => (none, some e)
  | HTTPResult.response status _ =>
      if status ≠ 200 then (none, none)
      else
        match readErr with
        | some e => (none, some e)
        | none =>
            match storeErr with
            | some e => (none, some e)
            | none =>
                match extract with
                | Except.error e => (none, some e)
                | Except.ok urls => (some urls, none)

/-- the pieces of a parsed URL that preprocessRawURL inspects: net/url
IsAbs() is scheme nonempty, and isValidHTTPURL checks host and scheme. -/
structure URLParts : Type where
  scheme : String
  host : String
deriving DecidableEq

/-- isValidHTTPURL (crawler.go lines 24-26). -/
def isValidHTTPURL (u : URLParts) : Bool :=
  u.host ≠ "" && (u.scheme = "https" || u.scheme = "http")

/-- preprocessRawURL (crawler.go lines 28-58).  net/url parsing, rendering
and reference resolution are library calls, modelled by the oracles parse,
render and resolve; the control flow of the source is kept exactly: empty or
unparsable input normalizes to the empty string, an absolute URL is kept iff
it is valid http(s), a relative URL is resolved against the base and kept
under the same filter. -/
def preprocessRawURL (parse : String → Option URLParts) (render : URLParts → String)
    (resolve : URLParts → URLParts → URLParts) (rawURL baseURL : String) : String :=
  if rawURL = "" then ""
  else
    match parse rawURL with
    | none => ""
    | some u =>
        if u.scheme ≠ "" then
          if isValidHTTPURL u then render u else ""
        else
          match parse baseURL with
          | none => ""
          | some bu =>
              let ru := resolve bu u
              if isValidHTTPURL ru then render ru else ""

/-- a DOM node as the link visitor sees it: whether it is an A element, its
attributes, and its children. -/
inductive HNode : Type where
  | node (isAnchor : Bool) (attrs : List (String × String)) (children : List HNode)

/-- the href attribute values the pre-order traversal of URLExtractor visits,
in visiting order: for each A element, every attribute with key href. -/
def hrefsOf : HNode → List String
  | HNode.node isAnchor attrs children =>
      (if isAnchor then (attrs.filter (fun a => a.1 = "href")).map Prod.snd else []) ++
        (children.attach.map (fun c => hrefsOf c.1)).flatten
decreasing_by
  have h := List.sizeOf_lt_of_mem c.2
  simp only [HNode.node.sizeOf_spec]
  omega

/-- URLExtractor (crawler.go lines 68-93): the visitor inserts the
normalization of every href value into the extracted set — including the
empty string a failed normalization produces.  The set is modelled as an
insertion-ordered duplicate-free list over the pre-order href sequence. -/
def URLExtractor (parse : String → Option URLParts) (render : URLParts → String)
    (resolve : URLParts → URLParts → URLParts) (root : HNode) (baseURL : String) :
    List String :=
  (hrefsOf root).foldl
    (fun acc raw => insKey acc (preprocessRawURL parse render resolve raw baseURL)) []

/-- the structural invariant of the inverted index: every docID mentioned in
a postings list is an ingested document, posting keys are duplicate free,
docFreq counts the posting keys of its term, positions lists are never
empty, and the cache holds doc:<d> exactly for the ingested documents. -/
structure IndexInv (st : Index) : Prop where
  keys_sub : ∀ t d, d ∈ keysA (getA st.index t []) → (lookA st.docLen d).isSome
  inner_nodup : ∀ t, (keysA (getA st.index t [])).Nodup
  freq_eq : ∀ t, getA st.docFreq t 0 = (getA st.index t []).length
  pos_nonempty : ∀ t p, p ∈ getA st.index t [] → p.2 ≠ []
  cache_eq : ∀ d, CKey.doc d ∈ st.cache ↔ (lookA st.docLen d).isSome

/-- well-formedness of the L1 LRU bookkeeping: the order list is duplicate
free and carries exactly the cached keys.  The Go implementation maintains
this between operations. -/
def L1WF (c : MultiLayerCache) : Prop :=
  c.l1Order.Nodup ∧ c.l1Order.Perm (keysA c.l1Cache)

/-- coherence of the term cache with the live index: every postings payload
stored under term:<t>, in any tier, is the current index entry of t.  In Go
the cached value is the same map object as index[t], so this holds by
aliasing; searches preserve it. -/
def TermCoherent (st : Index) (c : MultiLayerCache) : Prop :=
  ∀ t p, ((CKey.term t, CPayload.postings p) ∈ c.l1Cache ∨
      (CKey.term t, CPayload.postings p) ∈ c.l2Cache ∨
      (CKey.term t, CPayload.postings p) ∈ c.l3Cache) →
    lookA st.index t = some p

/-- a concrete ingested index used to exercise the suggestion operation:
terms abc (document frequency 1) and abd (document frequency 2). -/
def suggState : Index :=
  ingest emptyIndex [("d1", ["abc"]), ("d2", ["abd"]), ("d3", ["abd"])]

/-- a concrete one-document index used to exercise search. -/
def searchState : Index :=
  ingest emptyIndex [("A", ["cat", "dog", "cat"])]

/-! ### Association-list map lemmas -/

theorem getA_eq_lookA {κ α : Type} [DecidableEq κ] (m : List (κ × α)) (k : κ) (d : α) :
    getA m k d = (lookA m k).getD d := by
  induction m with
  | nil => rfl
  | cons p r ih =>
      obtain ⟨k1, v⟩ := p
      by_cases hk : k1 = k
      · simp [getA, lookA, hk]
      · simp [getA, lookA, hk, ih]

theorem lookA_setA_self {κ α : Type} [DecidableEq κ] (m : List (κ × α)) (k : κ) (v : α) :
    lookA (setA m k v) k = some v := by
  induction m with
  | nil => simp [setA, lookA]
  | cons p r ih =>
      obtain ⟨k1, v1⟩ := p
      by_cases hk : k1 = k
      · simp [setA, hk, lookA]
      · simp [setA, hk, lookA, ih]

theorem lookA_setA_ne {κ α : Type} [DecidableEq κ] (m : List (κ × α)) (k k2 : κ) (v : α)
    (h : k2 ≠ k) : lookA (setA m k v) k2 = lookA m k2 := by
  have hkk : ¬ k = k2 := fun hc => h hc.symm
  induction m with
  | nil => simp [setA, lookA, hkk]
  | cons p r ih =>
      obtain ⟨k1, v1⟩ := p
      by_cases hk : k1 = k
      · subst hk
        simp [setA, lookA, hkk]
      · simp [setA, hk, lookA, ih]

theorem getA_setA_self {κ α : Type} [DecidableEq κ] (m : List (κ × α)) (k : κ) (v d : α) :
    getA (setA m k v) k d = v := by
  rw [getA_eq_lookA, lookA_setA_self]
  rfl

theorem getA_setA_ne {κ α : Type} [DecidableEq κ] (m : List (κ × α)) (k k2 : κ) (v : α)
    (d : α) (h : k2 ≠ k) : getA (setA m k v) k2 d = getA m k2 d := by
  rw [getA_eq_lookA, lookA_setA_ne m k k2 v h, getA_eq_lookA]

theorem keysA_nil {κ α : Type} : keysA ([] : List (κ × α)) = [] := rfl

theorem keysA_cons {κ α : Type} (p : κ × α) (r : List (κ × α)) :
    keysA (p :: r) = p.1 :: keysA r := rfl

theorem lookA_eq_none_iff {κ α : Type} [DecidableEq κ] (m : List (κ × α)) (k : κ) :
    lookA m k = none ↔ k ∉ keysA m := by
  induction m with
  | nil => simp [lookA, keysA]
  | cons p r ih =>
      obtain ⟨k1, v1⟩ := p
      by_cases hk : k1 = k
      · subst hk
        simp [lookA, keysA_cons]
      · have hkk : ¬ k = k1 := fun hc => hk hc.symm
        simp [lookA, hk, keysA_cons, ih, hkk]

theorem lookA_isSome_iff {κ α : Type} [DecidableEq κ] (m : List (κ × α)) (k : κ) :
    (lookA m k).isSome ↔ k ∈ keysA m := by
  rcases ho : lookA m k with _ | v
  · rw [lookA_eq_none_iff] at ho
    simp [ho]
  · have : k ∈ keysA m := by
      by_contra hn
      rw [← lookA_eq_none_iff] at hn
      rw [ho] at hn
      exact Option.noConfusion hn
    simp [this]

theorem lookA_mem {κ α : Type} [DecidableEq κ] (m : List (κ × α)) (k : κ) (v : α)
    (h : lookA m k = some v) : (k, v) ∈ m := by
  induction m with
  | nil => exact Option.noConfusion h
  | cons p r ih =>
      obtain ⟨k1, v1⟩ := p
      simp only [lookA] at h
      by_cases hk : k1 = k
      · rw [if_pos hk] at h
        injection h with hv
        subst hk
        subst hv
        exact List.mem_cons_self _ _
      · rw [if_neg hk] at h
        exact List.mem_cons_of_mem _ (ih h)

theorem mem_keysA {κ α : Type} [DecidableEq κ] (m : List (κ × α)) (k : κ) :
    k ∈ keysA m ↔ ∃ v, (k, v) ∈ m := by
  constructor
  · intro h
    obtain ⟨p, hp, he⟩ := List.mem_map.mp h
    exact ⟨p.2, by simpa [← he] using hp⟩
  · rintro ⟨v, hv⟩
    exact List.mem_map.mpr ⟨(k, v), hv, rfl⟩

theorem keysA_setA {κ α : Type} [DecidableEq κ] (m : List (κ × α)) (k : κ) (v : α) :
    keysA (setA m k v) = if k ∈ keysA m then keysA m else keysA m ++ [k] := by
  induction m with
  | nil => simp [setA, keysA]
  | cons p r ih =>
      obtain ⟨k1, v1⟩ := p
      by_cases hk : k1 = k
      · subst hk
        simp [setA, keysA_cons, List.mem_cons]
      · have hkk : ¬ k = k1 := fun hc => hk hc.symm
        simp only [setA, if_neg hk, keysA_cons, List.mem_cons]
        by_cases hm : k ∈ keysA r
        · simp [ih, hm, hkk]
        · simp [ih, hm, hkk]

theorem nodup_lookA_of_mem {κ α : Type} [DecidableEq κ] (m : List (κ × α)) (k : κ) (v : α)
    (hn : (keysA m).Nodup) (h : (k, v) ∈ m) : lookA m k = some v := by
  induction m with
  | nil => exact absurd h (List.not_mem_nil _)
  | cons p r ih =>
      obtain ⟨k1, v1⟩ := p
      rw [keysA_cons, List.nodup_cons] at hn
      rcases List.mem_cons.mp h with he | hr
      · cases he
        simp [lookA]
      · have hk1 : k1 ≠ k := by
          intro hc
          subst hc
          exact hn.1 ((mem_keysA r k1).mpr ⟨v, hr⟩)
        simp [lookA, hk1, ih hn.2 hr]

theorem addDoc_cache_hit (st : Index) (d : String) (tokens : List String)
    (h : CKey.doc d ∈ st.cache) : AddDocument st d tokens = st := by
  unfold AddDocument
  rw [if_pos h]

theorem addDoc_len_hit (st : Index) (d : String) (tokens : List String)
    (h1 : CKey.doc d ∉ st.cache) (h2 : (lookA st.docLen d).isSome) :
    AddDocument st d tokens = st := by
  unfold AddDocument
  rw [if_neg h1, if_pos h2]

/-- the effective branch of AddDocument, written out. -/
theorem addDoc_effective (st : Index) (d : String) (tokens : List String)
    (h1 : CKey.doc d ∉ st.cache) (h2 : lookA st.docLen d = none) :
    AddDocument st d tokens =
      { index := (tokens.enum.foldl (addTok d) ⟨st.index, st.docFreq, []⟩).index
        docLen := setA st.docLen d tokens.length
        docFreq := (tokens.enum.foldl (addTok d) ⟨st.index, st.docFreq, []⟩).docFreq
        docCount := st.docCount + 1
        sumDocLen := st.sumDocLen + tokens.length
        avgDL := ((st.sumDocLen + tokens.length : Nat) : ℚ) / ((st.docCount + 1 : Nat) : ℚ)
        cache := CKey.doc d :: st.cache } := by
  unfold AddDocument
  rw [if_neg h1, if_neg (by simp [h2])]

/-! ### Claim C1: AddDocument is idempotent in the docID -/

/-- C1: re-adding a docID is a no-op: after AddDocument(d, T1), a second
call AddDocument(d, T2) leaves the whole index state — postings, docLen,
docFreq, docCount, sumDocLen, avgDL (and the cache) — exactly as the first
call left it. -/
theorem AddDocument_idempotent (st : Index) (d : String) (T1 T2 : List String) :
    AddDocument (AddDocument st d T1) d T2 = AddDocument st d T1 := by
  by_cases h1 : CKey.doc d ∈ st.cache
  · rw [addDoc_cache_hit st d T1 h1]
    exact addDoc_cache_hit st d T2 h1
  · by_cases h2 : (lookA st.docLen d).isSome
    · rw [addDoc_len_hit st d T1 h1 h2]
      exact addDoc_len_hit st d T2 h1 h2
    · have h2n : lookA st.docLen d = none := Option.not_isSome_iff_eq_none.mp h2
      rw [addDoc_effective st d T1 h1 h2n]
      exact addDoc_cache_hit _ d T2 (List.mem_cons_self _ _)

/-! ### Claim C5: a pre-existing doc:<id> cache entry suppresses indexing -/

/-- C5: when the multi-layer cache holds an entry under key doc:<docID>,
AddDocument returns immediately and the entire index state is unchanged —
with no assumption that docID was ever indexed (docLen membership is not
consulted). -/
theorem AddDocument_cached_skips (st : Index) (d : String) (tokens : List String)
    (h : CKey.doc d ∈ st.cache) : AddDocument st d tokens = st :=
  addDoc_cache_hit st d tokens h

/-! ### The token loop of AddDocument, characterized -/

theorem addTok_index (d : String) (acc : IngestAcc) (pos : Nat) (tok : String) :
    (addTok d acc (pos, tok)).index =
      setA acc.index tok
        (setA (getA acc.index tok []) d (getA (getA acc.index tok []) d [] ++ [pos])) := by
  by_cases h : tok ∈ acc.seen <;> simp [addTok, h]

theorem addTok_docFreq (d : String) (acc : IngestAcc) (pos : Nat) (tok : String) :
    (addTok d acc (pos, tok)).docFreq =
      if tok ∈ acc.seen then acc.docFreq
      else setA acc.docFreq tok (getA acc.docFreq tok 0 + 1) := by
  by_cases h : tok ∈ acc.seen <;> simp [addTok, h]

theorem addTok_seen (d : String) (acc : IngestAcc) (pos : Nat) (tok : String) :
    (addTok d acc (pos, tok)).seen =
      if tok ∈ acc.seen then acc.seen else tok :: acc.seen := by
  by_cases h : tok ∈ acc.seen <;> simp [addTok, h]

theorem foldl_addTok_positions (d : String) (pts : List (Nat × String)) :
    ∀ (acc : IngestAcc) (t d2 : String),
      getA (getA (pts.foldl (addTok d) acc).index t []) d2 [] =
        getA (getA acc.index t []) d2 [] ++
          (if d2 = d then (pts.filter (fun p => p.2 = t)).map Prod.fst else []) := by
  induction pts with
  | nil => intro acc t d2; simp
  | cons pt rest ih =>
      intro acc t d2
      obtain ⟨pos, tok⟩ := pt
      rw [List.foldl_cons, ih]
      by_cases ht : tok = t
      · subst ht
        rw [addTok_index, getA_setA_self]
        by_cases hd : d2 = d
        · subst hd
          rw [getA_setA_self]
          simp [List.filter_cons, List.append_assoc]
        · rw [getA_setA_ne _ _ _ _ _ hd]
          simp [hd, List.filter_cons]
      · rw [addTok_index, getA_setA_ne _ _ _ _ _ (fun hc => ht hc.symm)]
        have : (List.filter (fun p => decide (p.2 = t)) ((pos, tok) :: rest)) =
            List.filter (fun p => decide (p.2 = t)) rest := by
          simp [List.filter_cons, ht]
        simp [this]

theorem foldl_addTok_keys (d : String) (pts : List (Nat × String)) :
    ∀ (acc : IngestAcc) (t : String),
      keysA (getA (pts.foldl (addTok d) acc).index t []) =
        keysA (getA acc.index t []) ++
          (if d ∈ keysA (getA acc.index t []) ∨ t ∉ pts.map Prod.snd then [] else [d]) := by
  induction pts with
  | nil => intro acc t; simp
  | cons pt rest ih =>
      intro acc t
      obtain ⟨pos, tok⟩ := pt
      rw [List.foldl_cons, ih]
      by_cases ht : tok = t
      · subst ht
        rw [addTok_index, getA_setA_self, keysA_setA]
        by_cases hd : d ∈ keysA (getA acc.index tok [])
        · simp [hd]
        · simp [hd]
      · rw [addTok_index, getA_setA_ne _ _ _ _ _ (fun hc => ht hc.symm)]
        have hne : ¬ t = tok := fun hc => ht hc.symm
        have hm : (t ∈ List.map Prod.snd ((pos, tok) :: rest)) ↔ t ∈ List.map Prod.snd rest := by
          simp [List.mem_cons, hne]
        by_cases hd : d ∈ keysA (getA acc.index t []) <;>
          by_cases hr : t ∈ List.map Prod.snd rest <;>
            simp [hd, hr, hm, hne]

theorem foldl_addTok_docFreq (d : String) (pts : List (Nat × String)) :
    ∀ (acc : IngestAcc) (t : String),
      getA (pts.foldl (addTok d) acc).docFreq t 0 =
        getA acc.docFreq t 0 +
          (if t ∉ acc.seen ∧ t ∈ pts.map Prod.snd then 1 else 0) := by
  induction pts with
  | nil => intro acc t; simp
  | cons pt rest ih =>
      intro acc t
      obtain ⟨pos, tok⟩ := pt
      rw [List.foldl_cons, ih]
      rw [addTok_docFreq, addTok_seen]
      by_cases hs : tok ∈ acc.seen
      · rw [if_pos hs, if_pos hs]
        by_cases ht : t = tok
        · subst ht
          simp [hs]
        · simp only [List.map_cons, List.mem_cons]
          by_cases hts : t ∈ acc.seen <;> by_cases hr : t ∈ List.map Prod.snd rest <;>
            simp [hts, hr, ht]
      · rw [if_neg hs, if_neg hs]
        by_cases ht : t = tok
        · subst ht
          rw [getA_setA_self]
          simp [hs, List.mem_cons]
        · rw [getA_setA_ne _ _ _ _ _ ht]
          simp only [List.map_cons, List.mem_cons]
          by_cases hts : t ∈ acc.seen <;> by_cases hr : t ∈ List.map Prod.snd rest <;>
            simp [hts, hr, ht]

theorem getA_of_not_mem_keys {κ α : Type} [DecidableEq κ] (m : List (κ × α)) (k : κ)
    (d : α) (h : k ∉ keysA m) : getA m k d = d := by
  rw [getA_eq_lookA, (lookA_eq_none_iff m k).mpr h]
  rfl

theorem lookA_setA_isSome {κ α : Type} [DecidableEq κ] (m : List (κ × α)) (k k2 : κ)
    (v : α) : (lookA (setA m k v) k2).isSome ↔ k2 = k ∨ (lookA m k2).isSome := by
  by_cases hk : k2 = k
  · subst hk
    rw [lookA_setA_self]
    simp
  · rw [lookA_setA_ne _ _ _ _ hk]
    simp [hk]

theorem offsetsOf_ne_nil (tokens : List String) (t : String) (h : t ∈ tokens) :
    offsetsOf tokens t ≠ [] := by
  unfold offsetsOf
  intro hc
  rw [List.map_eq_nil_iff, List.filter_eq_nil_iff] at hc
  obtain ⟨i, hi⟩ := List.mem_iff_getElem?.mp h
  have hmem : (i, t) ∈ tokens.enum := List.mem_enum_iff_getElem?.mpr hi
  exact hc (i, t) hmem (by simp)

theorem foldl_addTok_lookA (d : String) (pts : List (Nat × String)) :
    ∀ (acc : IngestAcc) (t : String),
      (lookA (pts.foldl (addTok d) acc).index t).isSome ↔
        (lookA acc.index t).isSome ∨ t ∈ pts.map Prod.snd := by
  induction pts with
  | nil => intro acc t; simp
  | cons pt rest ih =>
      intro acc t
      obtain ⟨pos, tok⟩ := pt
      rw [List.foldl_cons, ih]
      by_cases ht : tok = t
      · subst ht
        rw [addTok_index, lookA_setA_self]
        simp
      · rw [addTok_index, lookA_setA_ne _ _ _ _ (fun hc => ht hc.symm)]
        simp only [List.map_cons, List.mem_cons]
        constructor
        · rintro (h | h)
          · exact Or.inl h
          · exact Or.inr (Or.inr h)
        · rintro (h | h | h)
          · exact Or.inl h
          · exact absurd h.symm ht
          · exact Or.inr h

/-! ### The index invariant is established and preserved by ingestion -/

theorem inv_empty : IndexInv emptyIndex := by
  constructor <;> simp [emptyIndex, getA, lookA, keysA]

theorem inv_addDocument (st : Index) (d : String) (tokens : List String)
    (h : IndexInv st) : IndexInv (AddDocument st d tokens) := by
  by_cases h1 : CKey.doc d ∈ st.cache
  · rw [addDoc_cache_hit st d tokens h1]
    exact h
  · by_cases h2 : (lookA st.docLen d).isSome
    · rw [addDoc_len_hit st d tokens h1 h2]
      exact h
    · have h2n : lookA st.docLen d = none := Option.not_isSome_iff_eq_none.mp h2
      rw [addDoc_effective st d tokens h1 h2n]
      have hkeys : ∀ t,
          keysA (getA (tokens.enum.foldl (addTok d) ⟨st.index, st.docFreq, []⟩).index t []) =
            keysA (getA st.index t []) ++
              (if d ∈ keysA (getA st.index t []) ∨ t ∉ tokens then [] else [d]) := by
        intro t
        have hk := foldl_addTok_keys d tokens.enum ⟨st.index, st.docFreq, []⟩ t
        rwa [List.enum_map_snd] at hk
      have hdnot : ∀ t, d ∉ keysA (getA st.index t []) := by
        intro t hc
        exact h2 (h.keys_sub t d hc)
      have hnodup : ∀ t,
          (keysA (getA (tokens.enum.foldl (addTok d) ⟨st.index, st.docFreq, []⟩).index t [])).Nodup := by
        intro t
        rw [hkeys t]
        by_cases hc : d ∈ keysA (getA st.index t []) ∨ t ∉ tokens
        · rw [if_pos hc]
          simpa using h.inner_nodup t
        · rw [if_neg hc]
          rw [List.nodup_append]
          refine ⟨h.inner_nodup t, List.nodup_singleton d, ?_⟩
          intro a ha hb
          rw [List.mem_singleton] at hb
          subst hb
          exact (hdnot t) ha
      refine ⟨?_, ?_, ?_, ?_, ?_⟩
      · -- keys_sub
        intro t d2 hd2
        rw [hkeys t] at hd2
        rw [lookA_setA_isSome]
        rcases List.mem_append.mp hd2 with hin | hin
        · exact Or.inr (h.keys_sub t d2 hin)
        · by_cases hc : d ∈ keysA (getA st.index t []) ∨ t ∉ tokens
          · rw [if_pos hc] at hin
            exact absurd hin (List.not_mem_nil d2)
          · rw [if_neg hc] at hin
            exact Or.inl (List.mem_singleton.mp hin)
      · -- inner_nodup
        exact hnodup
      · -- freq_eq
        intro t
        have hfreq := foldl_addTok_docFreq d tokens.enum ⟨st.index, st.docFreq, []⟩ t
        rw [List.enum_map_snd] at hfreq
        have hfreq2 : getA (tokens.enum.foldl (addTok d) ⟨st.index, st.docFreq, []⟩).docFreq t 0 =
            getA st.docFreq t 0 + (if t ∈ tokens then 1 else 0) := by
          simpa using hfreq
        have hbranch : (if d ∈ keysA (getA st.index t []) ∨ t ∉ tokens
              then ([] : List String) else [d]).length = (if t ∈ tokens then 1 else 0) := by
          by_cases ht : t ∈ tokens
          · rw [if_neg (by simp [hdnot t, ht]), if_pos ht]
            rfl
          · rw [if_pos (Or.inr ht), if_neg ht]
            rfl
        have hlen2 : (getA (tokens.enum.foldl (addTok d) ⟨st.index, st.docFreq, []⟩).index t []).length =
            (keysA (getA st.index t [])).length + (if t ∈ tokens then 1 else 0) := by
          have h1 : (getA (tokens.enum.foldl (addTok d) ⟨st.index, st.docFreq, []⟩).index t []).length =
              (keysA (getA (tokens.enum.foldl (addTok d) ⟨st.index, st.docFreq, []⟩).index t [])).length := by
            simp [keysA]
          rw [h1, hkeys t, List.length_append, hbranch]
        rw [hfreq2, hlen2, h.freq_eq t]
        simp [keysA]
      · -- pos_nonempty
        intro t p hp
        have hpe : (p.1, p.2) ∈ getA (tokens.enum.foldl (addTok d) ⟨st.index, st.docFreq, []⟩).index t [] := by
          simpa using hp
        have hval : getA (getA (tokens.enum.foldl (addTok d) ⟨st.index, st.docFreq, []⟩).index t []) p.1 [] = p.2 := by
          rw [getA_eq_lookA, nodup_lookA_of_mem _ p.1 p.2 (hnodup t) hpe]
          rfl
        have hpos : getA (getA (tokens.enum.foldl (addTok d) ⟨st.index, st.docFreq, []⟩).index t []) p.1 [] =
            getA (getA st.index t []) p.1 [] ++
              (if p.1 = d then (tokens.enum.filter (fun q => q.2 = t)).map Prod.fst else []) :=
          foldl_addTok_positions d tokens.enum ⟨st.index, st.docFreq, []⟩ t p.1
        have hkmem : p.1 ∈ keysA (getA (tokens.enum.foldl (addTok d) ⟨st.index, st.docFreq, []⟩).index t []) :=
          (mem_keysA _ _).mpr ⟨p.2, hpe⟩
        rw [hkeys t] at hkmem
        rw [hval] at hpos
        by_cases hpd : p.1 = d
        · -- the newly indexed document: its positions are the offsets of t
          have htok : t ∈ tokens := by
            rcases List.mem_append.mp hkmem with hin | hin
            · rw [hpd] at hin
              exact absurd hin (hdnot t)
            · by_cases hc : d ∈ keysA (getA st.index t []) ∨ t ∉ tokens
              · rw [if_pos hc] at hin
                exact absurd hin (List.not_mem_nil p.1)
              · push_neg at hc
                exact hc.2
          rw [if_pos hpd, hpd, getA_of_not_mem_keys _ _ _ (hdnot t), List.nil_append] at hpos
          rw [hpos]
          exact offsetsOf_ne_nil tokens t htok
        · -- an older document: its positions are untouched and were nonempty
          rw [if_neg hpd, List.append_nil] at hpos
          have hold : p.1 ∈ keysA (getA st.index t []) := by
            rcases List.mem_append.mp hkmem with hin | hin
            · exact hin
            · by_cases hc : d ∈ keysA (getA st.index t []) ∨ t ∉ tokens
              · rw [if_pos hc] at hin
                exact absurd hin (List.not_mem_nil p.1)
              · rw [if_neg hc] at hin
                exact absurd (List.mem_singleton.mp hin) hpd
          obtain ⟨v, hv⟩ := (mem_keysA _ _).mp hold
          have hvv : getA (getA st.index t []) p.1 [] = v := by
            rw [getA_eq_lookA, nodup_lookA_of_mem _ p.1 v (h.inner_nodup t) hv]
            rfl
          rw [hvv] at hpos
          rw [hpos]
          exact h.pos_nonempty t (p.1, v) hv
      · -- cache_eq
        intro d2
        simp [List.mem_cons, h.cache_eq d2, lookA_setA_isSome]

theorem inv_ingest (calls : List (String × List String)) :
    ∀ st : Index, IndexInv st → IndexInv (ingest st calls) := by
  induction calls with
  | nil => intro st h; exact h
  | cons c rest ih =>
      intro st h
      exact ih (AddDocument st c.1 c.2) (inv_addDocument st c.1 c.2 h)

theorem ingest_lookA_isSome (calls : List (String × List String)) :
    ∀ (st : Index) (seen : List String), IndexInv st →
      (∀ d2, d2 ∈ seen ↔ (lookA st.docLen d2).isSome) →
      ∀ t, ((lookA (ingest st calls).index t).isSome ↔
        ((lookA st.index t).isSome ∨ ∃ c ∈ firstCalls seen calls, t ∈ c.2)) := by
  induction calls with
  | nil => intro st seen hinv hseen t; simp [ingest, firstCalls]
  | cons c rest ih =>
      intro st seen hinv hseen t
      obtain ⟨d, toks⟩ := c
      by_cases hd : d ∈ seen
      · have hsome : (lookA st.docLen d).isSome := (hseen d).mp hd
        have hcache : CKey.doc d ∈ st.cache := (hinv.cache_eq d).mpr hsome
        have hst : ingest st ((d, toks) :: rest) = ingest st rest := by
          simp [ingest, addDoc_cache_hit st d toks hcache]
        rw [hst, ih st seen hinv hseen t]
        simp [firstCalls, hd]
      · have hnone : lookA st.docLen d = none :=
          Option.not_isSome_iff_eq_none.mp (fun hc => hd ((hseen d).mpr hc))
        have hcache : CKey.doc d ∉ st.cache :=
          fun hc => hd ((hseen d).mpr ((hinv.cache_eq d).mp hc))
        have hinv1 : IndexInv (AddDocument st d toks) := inv_addDocument st d toks hinv
        have hlen1 : (AddDocument st d toks).docLen = setA st.docLen d toks.length := by
          rw [addDoc_effective st d toks hcache hnone]
        have hidx1 : (AddDocument st d toks).index =
            (toks.enum.foldl (addTok d) ⟨st.index, st.docFreq, []⟩).index := by
          rw [addDoc_effective st d toks hcache hnone]
        have hseen1 : ∀ d2, d2 ∈ (d :: seen) ↔ (lookA (AddDocument st d toks).docLen d2).isSome := by
          intro d2
          rw [hlen1, lookA_setA_isSome]
          simp [List.mem_cons, hseen d2]
        have hmain := ih (AddDocument st d toks) (d :: seen) hinv1 hseen1 t
        have hstep : (lookA (AddDocument st d toks).index t).isSome ↔
            ((lookA st.index t).isSome ∨ t ∈ toks) := by
          rw [hidx1]
          have h5 := foldl_addTok_lookA d toks.enum ⟨st.index, st.docFreq, []⟩ t
          rw [List.enum_map_snd] at h5
          exact h5
        have hgo : ingest st ((d, toks) :: rest) = ingest (AddDocument st d toks) rest := rfl
        rw [hgo, hmain, hstep]
        have hfc : firstCalls seen ((d, toks) :: rest) =
            (d, toks) :: firstCalls (d :: seen) rest := by
          simp [firstCalls, hd]
        rw [hfc]
        constructor
        · rintro ((ha | ht) | hex)
          · exact Or.inl ha
          · exact Or.inr ⟨(d, toks), List.mem_cons_self _ _, ht⟩
          · obtain ⟨c, hc, htc⟩ := hex
            exact Or.inr ⟨c, List.mem_cons_of_mem _ hc, htc⟩
        · rintro (ha | ⟨c, hc, htc⟩)
          · exact Or.inl (Or.inl ha)
          · rcases List.mem_cons.mp hc with he | hm
            · subst he
              exact Or.inl (Or.inr htc)
            · exact Or.inr ⟨c, hm, htc⟩

theorem ingest_keeps_doc (calls : List (String × List String)) :
    ∀ (st : Index), IndexInv st → ∀ d, (lookA st.docLen d).isSome →
      ∀ t, getA (getA (ingest st calls).index t []) d [] = getA (getA st.index t []) d [] := by
  induction calls with
  | nil => intro st hinv d hd t; rfl
  | cons c rest ih =>
      intro st hinv d hd t
      obtain ⟨d1, toks⟩ := c
      have hgo : ingest st ((d1, toks) :: rest) = ingest (AddDocument st d1 toks) rest := rfl
      rw [hgo]
      by_cases h1 : CKey.doc d1 ∈ st.cache
      · rw [addDoc_cache_hit st d1 toks h1]
        exact ih st hinv d hd t
      · by_cases h2 : (lookA st.docLen d1).isSome
        · rw [addDoc_len_hit st d1 toks h1 h2]
          exact ih st hinv d hd t
        · have h2n : lookA st.docLen d1 = none := Option.not_isSome_iff_eq_none.mp h2
          have hne : d ≠ d1 := by
            intro hc
            subst hc
            rw [h2n] at hd
            exact Bool.noConfusion hd
          have hinv1 := inv_addDocument st d1 toks hinv
          have hlen1 : (AddDocument st d1 toks).docLen = setA st.docLen d1 toks.length := by
            rw [addDoc_effective st d1 toks h1 h2n]
          have hd1 : (lookA (AddDocument st d1 toks).docLen d).isSome := by
            rw [hlen1, lookA_setA_ne _ _ _ _ hne]
            exact hd
          rw [ih (AddDocument st d1 toks) hinv1 d hd1 t]
          have hidx1 : (AddDocument st d1 toks).index =
              (toks.enum.foldl (addTok d1) ⟨st.index, st.docFreq, []⟩).index := by
            rw [addDoc_effective st d1 toks h1 h2n]
          rw [hidx1]
          have hpos : getA (getA (toks.enum.foldl (addTok d1) ⟨st.index, st.docFreq, []⟩).index t []) d [] =
              getA (getA st.index t []) d [] ++
                (if d = d1 then (toks.enum.filter (fun q => q.2 = t)).map Prod.fst else []) :=
            foldl_addTok_positions d1 toks.enum ⟨st.index, st.docFreq, []⟩ t d
          rw [hpos, if_neg hne, List.append_nil]

theorem addDocument_positions (st : Index) (d : String) (tokens : List String) (t : String)
    (hinv : IndexInv st) (h : lookA st.docLen d = none) :
    getA (getA (AddDocument st d tokens).index t []) d [] = offsetsOf tokens t := by
  have hc : CKey.doc d ∉ st.cache := by
    intro hcc
    have hs := (hinv.cache_eq d).mp hcc
    rw [h] at hs
    exact Bool.noConfusion hs
  have hdnot : d ∉ keysA (getA st.index t []) := by
    intro hm
    have hs := hinv.keys_sub t d hm
    rw [h] at hs
    exact Bool.noConfusion hs
  have hidx1 : (AddDocument st d tokens).index =
      (tokens.enum.foldl (addTok d) ⟨st.index, st.docFreq, []⟩).index := by
    rw [addDoc_effective st d tokens hc h]
  rw [hidx1]
  have hpos : getA (getA (tokens.enum.foldl (addTok d) ⟨st.index, st.docFreq, []⟩).index t []) d [] =
      getA (getA st.index t []) d [] ++
        (if d = d then (tokens.enum.filter (fun q => q.2 = t)).map Prod.fst else []) :=
    foldl_addTok_positions d tokens.enum ⟨st.index, st.docFreq, []⟩ t d
  rw [hpos, if_pos rfl, getA_of_not_mem_keys _ _ _ hdnot, List.nil_append]
  rfl

theorem offsetsOf_sorted (tokens : List String) (t : String) :
    List.Sorted (· < ·) (offsetsOf tokens t) := by
  unfold offsetsOf
  have hsub : ((tokens.enum.filter (fun p => p.2 = t)).map Prod.fst).Sublist
      (tokens.enum.map Prod.fst) :=
    List.Sublist.map _ (List.filter_sublist _)
  rw [List.enum_map_fst] at hsub
  exact List.Pairwise.sublist hsub (List.pairwise_lt_range _)

theorem offsetsOf_mem_iff (tokens : List String) (t : String) (i : Nat) :
    i ∈ offsetsOf tokens t ↔ tokens[i]? = some t := by
  unfold offsetsOf
  constructor
  · intro hi
    obtain ⟨q, hq, he⟩ := List.mem_map.mp hi
    have hqf := List.mem_filter.mp hq
    have hqt : q.2 = t := by simpa using hqf.2
    have := List.mem_enum_iff_getElem?.mp hqf.1
    rw [he, hqt] at this
    exact this
  · intro hi
    have hmem : (i, t) ∈ tokens.enum := List.mem_enum_iff_getElem?.mpr hi
    refine List.mem_map.mpr ⟨(i, t), List.mem_filter.mpr ⟨hmem, by simp⟩, rfl⟩

/-! ### Set-insertion and candidate-enumeration lemmas -/

theorem mem_insKey (acc : List String) (d a : String) :
    a ∈ insKey acc d ↔ a ∈ acc ∨ a = d := by
  by_cases h : d ∈ acc
  · simp only [insKey, if_pos h]
    constructor
    · exact Or.inl
    · rintro (ha | rfl)
      · exact ha
      · exact h
  · simp [insKey, if_neg h, List.mem_append]

theorem nodup_insKey (acc : List String) (d : String) (h : acc.Nodup) :
    (insKey acc d).Nodup := by
  by_cases hd : d ∈ acc
  · simpa [insKey, if_pos hd] using h
  · rw [insKey, if_neg hd, List.nodup_append]
    refine ⟨h, List.nodup_singleton d, ?_⟩
    intro a ha hb
    rw [List.mem_singleton] at hb
    subst hb
    exact hd ha

theorem mem_insKeys (ds : List String) :
    ∀ (acc : List String) (a : String), a ∈ insKeys acc ds ↔ a ∈ acc ∨ a ∈ ds := by
  induction ds with
  | nil => intro acc a; simp [insKeys]
  | cons d rest ih =>
      intro acc a
      have hgo : insKeys acc (d :: rest) = insKeys (insKey acc d) rest := rfl
      rw [hgo, ih (insKey acc d) a, mem_insKey]
      simp [List.mem_cons]
      tauto

theorem nodup_insKeys (ds : List String) :
    ∀ acc : List String, acc.Nodup → (insKeys acc ds).Nodup := by
  induction ds with
  | nil => intro acc h; exact h
  | cons d rest ih =>
      intro acc h
      exact ih (insKey acc d) (nodup_insKey acc d h)

theorem mem_candFold (st : Index) (terms : List String) :
    ∀ (acc : List String) (a : String),
      (a ∈ terms.foldl (fun cs t =>
          match lookA st.index t with
          | none => cs
          | some p => insKeys cs (keysA p)) acc ↔
        a ∈ acc ∨ ∃ t ∈ terms, ∃ p, lookA st.index t = some p ∧ a ∈ keysA p) := by
  induction terms with
  | nil => intro acc a; simp
  | cons t rest ih =>
      intro acc a
      rw [List.foldl_cons]
      rcases hl : lookA st.index t with _ | p
      · have hred : (match (none : Option (List (String × List Nat))) with
            | none => acc
            | some p => insKeys acc (keysA p)) = acc := rfl
        rw [hred, ih acc a]
        constructor
        · rintro (ha | ⟨t2, ht2, hp⟩)
          · exact Or.inl ha
          · exact Or.inr ⟨t2, List.mem_cons_of_mem _ ht2, hp⟩
        · rintro (ha | ⟨t2, ht2, p2, hp2, hap⟩)
          · exact Or.inl ha
          · rcases List.mem_cons.mp ht2 with he | hm
            · subst he
              rw [hl] at hp2
              exact Option.noConfusion hp2
            · exact Or.inr ⟨t2, hm, p2, hp2, hap⟩
      · have hred : (match (some p : Option (List (String × List Nat))) with
            | none => acc
            | some p2 => insKeys acc (keysA p2)) = insKeys acc (keysA p) := rfl
        rw [hred, ih _ a, mem_insKeys]
        constructor
        · rintro ((ha | hk) | ⟨t2, ht2, hp⟩)
          · exact Or.inl ha
          · exact Or.inr ⟨t, List.mem_cons_self _ _, p, hl, hk⟩
          · exact Or.inr ⟨t2, List.mem_cons_of_mem _ ht2, hp⟩
        · rintro (ha | ⟨t2, ht2, p2, hp2, hap⟩)
          · exact Or.inl (Or.inl ha)
          · rcases List.mem_cons.mp ht2 with he | hm
            · subst he
              rw [hl] at hp2
              injection hp2 with he2
              subst he2
              exact Or.inl (Or.inr hap)
            · exact Or.inr ⟨t2, hm, p2, hp2, hap⟩

theorem nodup_candFold (st : Index) (terms : List String) :
    ∀ acc : List String, acc.Nodup →
      (terms.foldl (fun cs t =>
          match lookA st.index t with
          | none => cs
          | some p => insKeys cs (keysA p)) acc).Nodup := by
  induction terms with
  | nil => intro acc h; exact h
  | cons t rest ih =>
      intro acc h
      rw [List.foldl_cons]
      rcases hl : lookA st.index t with _ | p
      · have hred : (match (none : Option (List (String × List Nat))) with
            | none => acc
            | some p => insKeys acc (keysA p)) = acc := rfl
        rw [hred]
        exact ih acc h
      · have hred : (match (some p : Option (List (String × List Nat))) with
            | none => acc
            | some p2 => insKeys acc (keysA p2)) = insKeys acc (keysA p) := rfl
        rw [hred]
        exact ih _ (nodup_insKeys _ _ h)

theorem mem_candLoop (st : Index) (terms : List String) (a : String) :
    a ∈ candLoop st terms ↔
      ∃ t ∈ terms, ∃ p, lookA st.index t = some p ∧ a ∈ keysA p := by
  rw [candLoop, mem_candFold st terms [] a]
  simp

theorem nodup_candLoop (st : Index) (terms : List String) :
    (candLoop st terms).Nodup :=
  nodup_candFold st terms [] List.nodup_nil

theorem mem_keysA_setA {κ α : Type} [DecidableEq κ] (m : List (κ × α)) (k a : κ) (v : α) :
    a ∈ keysA (setA m k v) ↔ a ∈ keysA m ∨ a = k := by
  rw [keysA_setA]
  by_cases h : k ∈ keysA m
  · rw [if_pos h]
    constructor
    · exact Or.inl
    · rintro (ha | rfl)
      · exact ha
      · exact h
  · rw [if_neg h]
    simp [List.mem_append]

theorem nodup_keysA_setA {κ α : Type} [DecidableEq κ] (m : List (κ × α)) (k : κ) (v : α)
    (h : (keysA m).Nodup) : (keysA (setA m k v)).Nodup := by
  rw [keysA_setA]
  by_cases hk : k ∈ keysA m
  · rwa [if_pos hk]
  · rw [if_neg hk, List.nodup_append]
    refine ⟨h, List.nodup_singleton k, ?_⟩
    intro a ha hb
    rw [List.mem_singleton] at hb
    subst hb
    exact hk ha

/-! ### BM25 score-accumulation lemmas -/

theorem scoreTermAll_eq (lg : ℚ → ℚ) (st : Index) (cands : List String)
    (scores : List (String × ℚ)) (t : String) :
    scoreTermAll lg st cands scores t =
      if getA st.docFreq t 0 = 0 then scores
      else cands.foldl (scoreTermDoc (idfOf lg st t) st t) scores := by
  by_cases h : getA st.docFreq t 0 = 0
  · simp [scoreTermAll, h]
  · simp [scoreTermAll, idfOf, h]

theorem foldl_scoreTermDoc_getA (idf : ℚ) (st : Index) (t : String) (cands : List String) :
    ∀ (sc : List (String × ℚ)) (d : String), cands.Nodup →
      getA (cands.foldl (scoreTermDoc idf st t) sc) d 0 =
        getA sc d 0 + (if d ∈ cands ∧ (getA (getA st.index t []) d []).length ≠ 0
          then contribTerm idf st t d else 0) := by
  induction cands with
  | nil => intro sc d _; simp
  | cons d2 rest ih =>
      intro sc d hnd
      rw [List.nodup_cons] at hnd
      rw [List.foldl_cons, ih _ d hnd.2]
      by_cases htf2 : (getA (getA st.index t []) d2 []).length = 0
      · have hstep : scoreTermDoc idf st t sc d2 = sc := by
          simp [scoreTermDoc, htf2]
        rw [hstep]
        by_cases hdd : d = d2
        · subst hdd
          simp [hnd.1, htf2]
        · simp [List.mem_cons, hdd]
      · have hstep : scoreTermDoc idf st t sc d2 =
            setA sc d2 (getA sc d2 0 + contribTerm idf st t d2) := by
          simp [scoreTermDoc, htf2]
        rw [hstep]
        by_cases hdd : d = d2
        · subst hdd
          rw [getA_setA_self]
          rw [if_neg (fun hc => hnd.1 hc.1),
            if_pos ⟨List.mem_cons_self _ _, htf2⟩, add_zero]
        · rw [getA_setA_ne _ _ _ _ _ hdd]
          simp [List.mem_cons, hdd]

theorem foldl_scoreTermDoc_keys (idf : ℚ) (st : Index) (t : String) (cands : List String) :
    ∀ (sc : List (String × ℚ)) (d : String),
      (d ∈ keysA (cands.foldl (scoreTermDoc idf st t) sc) ↔
        d ∈ keysA sc ∨ (d ∈ cands ∧ (getA (getA st.index t []) d []).length ≠ 0)) := by
  induction cands with
  | nil => intro sc d; simp
  | cons d2 rest ih =>
      intro sc d
      rw [List.foldl_cons, ih]
      by_cases htf2 : (getA (getA st.index t []) d2 []).length = 0
      · have hstep : scoreTermDoc idf st t sc d2 = sc := by
          simp [scoreTermDoc, htf2]
        rw [hstep]
        by_cases hdd : d = d2
        · subst hdd
          simp [htf2]
        · simp [List.mem_cons, hdd]
      · have hstep : scoreTermDoc idf st t sc d2 =
            setA sc d2 (getA sc d2 0 + contribTerm idf st t d2) := by
          simp [scoreTermDoc, htf2]
        rw [hstep, mem_keysA_setA]
        by_cases hdd : d = d2
        · subst hdd
          simp [htf2]
        · simp [List.mem_cons, hdd]

theorem foldl_scoreTermDoc_nodup (idf : ℚ) (st : Index) (t : String) (cands : List String) :
    ∀ sc : List (String × ℚ), (keysA sc).Nodup →
      (keysA (cands.foldl (scoreTermDoc idf st t) sc)).Nodup := by
  induction cands with
  | nil => intro sc h; exact h
  | cons d2 rest ih =>
      intro sc h
      rw [List.foldl_cons]
      by_cases htf2 : (getA (getA st.index t []) d2 []).length = 0
      · have hstep : scoreTermDoc idf st t sc d2 = sc := by
          simp [scoreTermDoc, htf2]
        rw [hstep]
        exact ih sc h
      · have hstep : scoreTermDoc idf st t sc d2 =
            setA sc d2 (getA sc d2 0 + contribTerm idf st t d2) := by
          simp [scoreTermDoc, htf2]
        rw [hstep]
        exact ih _ (nodup_keysA_setA _ _ _ h)

theorem foldl_scoreTermAll_getA (lg : ℚ → ℚ) (st : Index) (cands : List String)
    (hnd : cands.Nodup) (terms : List String) :
    ∀ (sc : List (String × ℚ)) (d : String),
      getA (terms.foldl (scoreTermAll lg st cands) sc) d 0 =
        getA sc d 0 + (terms.map (fun t =>
          if getA st.docFreq t 0 ≠ 0 ∧ (getA (getA st.index t []) d []).length ≠ 0 ∧ d ∈ cands
          then contribTerm (idfOf lg st t) st t d else 0)).sum := by
  induction terms with
  | nil => intro sc d; simp
  | cons t rest ih =>
      intro sc d
      rw [List.foldl_cons, ih, scoreTermAll_eq]
      by_cases hdf : getA st.docFreq t 0 = 0
      · rw [if_pos hdf]
        simp [hdf]
      · rw [if_neg hdf, foldl_scoreTermDoc_getA _ _ _ _ _ _ hnd]
        by_cases h2 : (getA (getA st.index t []) d []).length = 0
        · have hnil : getA (getA st.index t []) d [] = [] := List.length_eq_zero.mp h2
          by_cases h1 : d ∈ cands <;> simp [hdf, h1, h2, hnil, add_assoc]
        · have hnil : ¬ getA (getA st.index t []) d [] = [] := by
            intro hc
            rw [hc] at h2
            exact h2 rfl
          by_cases h1 : d ∈ cands <;> simp [hdf, h1, h2, hnil, add_assoc]

theorem foldl_scoreTermAll_keys (lg : ℚ → ℚ) (st : Index) (cands : List String)
    (terms : List String) :
    ∀ (sc : List (String × ℚ)) (d : String),
      (d ∈ keysA (terms.foldl (scoreTermAll lg st cands) sc) ↔
        d ∈ keysA sc ∨ ∃ t ∈ terms, getA st.docFreq t 0 ≠ 0 ∧ d ∈ cands ∧
          (getA (getA st.index t []) d []).length ≠ 0) := by
  induction terms with
  | nil => intro sc d; simp
  | cons t rest ih =>
      intro sc d
      rw [List.foldl_cons, ih, scoreTermAll_eq]
      by_cases hdf : getA st.docFreq t 0 = 0
      · rw [if_pos hdf]
        constructor
        · rintro (hs | ⟨t2, ht2, hp⟩)
          · exact Or.inl hs
          · exact Or.inr ⟨t2, List.mem_cons_of_mem _ ht2, hp⟩
        · rintro (hs | ⟨t2, ht2, hp⟩)
          · exact Or.inl hs
          · rcases List.mem_cons.mp ht2 with he | hm
            · subst he
              exact absurd hdf hp.1
            · exact Or.inr ⟨t2, hm, hp⟩
      · rw [if_neg hdf, foldl_scoreTermDoc_keys]
        constructor
        · rintro ((hs | hq) | ⟨t2, ht2, hp⟩)
          · exact Or.inl hs
          · exact Or.inr ⟨t, List.mem_cons_self _ _, hdf, hq.1, hq.2⟩
          · exact Or.inr ⟨t2, List.mem_cons_of_mem _ ht2, hp⟩
        · rintro (hs | ⟨t2, ht2, hp⟩)
          · exact Or.inl (Or.inl hs)
          · rcases List.mem_cons.mp ht2 with he | hm
            · subst he
              exact Or.inl (Or.inr ⟨hp.2.1, hp.2.2⟩)
            · exact Or.inr ⟨t2, hm, hp⟩

theorem foldl_scoreTermAll_nodup (lg : ℚ → ℚ) (st : Index) (cands : List String)
    (terms : List String) :
    ∀ sc : List (String × ℚ), (keysA sc).Nodup →
      (keysA (terms.foldl (scoreTermAll lg st cands) sc)).Nodup := by
  induction terms with
  | nil => intro sc h; exact h
  | cons t rest ih =>
      intro sc h
      rw [List.foldl_cons, scoreTermAll_eq]
      by_cases hdf : getA st.docFreq t 0 = 0
      · rw [if_pos hdf]
        exact ih sc h
      · rw [if_neg hdf]
        exact ih _ (foldl_scoreTermDoc_nodup _ _ _ _ _ h)

theorem bm25Score_eq_sum (lg : ℚ → ℚ) (st : Index) (terms : List String) (d : String) :
    bm25Score lg st terms d = (terms.map (fun t =>
      if getA st.docFreq t 0 ≠ 0 ∧ (getA (getA st.index t []) d []).length ≠ 0
      then contribTerm (idfOf lg st t) st t d else 0)).sum := by
  unfold bm25Score
  have hfun : (fun t =>
      let df : ℚ := (getA st.docFreq t 0 : Nat)
      if df = 0 then 0
      else
        let tf : ℚ := ((getA (getA st.index t []) d []).length : Nat)
        if tf = 0 then 0
        else
          lg (((st.docCount : ℚ) - df + 1 / 2) / (df + 1 / 2)) * (tf * (bmK1 + 1)) /
            (tf + bmK1 * (1 - bmB + bmB * (((getA st.docLen d 0 : Nat) : ℚ) / st.avgDL)))) =
      (fun t => if getA st.docFreq t 0 ≠ 0 ∧ (getA (getA st.index t []) d []).length ≠ 0
        then contribTerm (idfOf lg st t) st t d else 0) := by
    funext t
    by_cases h1 : getA st.docFreq t 0 = 0
    · simp [h1]
    · by_cases h2 : (getA (getA st.index t []) d []).length = 0
      · simp [h1, h2]
      · simp [h1, h2, contribTerm, idfOf]
  rw [hfun]

/-! ### Term-cache coherence is preserved by the cache operations -/

theorem mem_setA_sub {κ α : Type} [DecidableEq κ] (m : List (κ × α)) (k : κ) (v : α)
    (q : κ × α) (h : q ∈ setA m k v) : q ∈ m ∨ q = (k, v) := by
  induction m with
  | nil =>
      simp only [setA] at h
      exact Or.inr (List.mem_singleton.mp h)
  | cons p r ih =>
      obtain ⟨k1, v1⟩ := p
      by_cases hk : k1 = k
      · rw [setA, if_pos hk] at h
        rcases List.mem_cons.mp h with he | hm
        · exact Or.inr he
        · exact Or.inl (List.mem_cons_of_mem _ hm)
      · rw [setA, if_neg hk] at h
        rcases List.mem_cons.mp h with he | hm
        · exact Or.inl (he ▸ List.mem_cons_self _ _)
        · rcases ih hm with hq | hq
          · exact Or.inl (List.mem_cons_of_mem _ hq)
          · exact Or.inr hq

theorem mem_eraseA_sub {κ α : Type} [DecidableEq κ] (m : List (κ × α)) (k : κ)
    (q : κ × α) (h : q ∈ eraseA m k) : q ∈ m := by
  induction m with
  | nil =>
      simp only [eraseA] at h
      exact absurd h (List.not_mem_nil q)
  | cons p r ih =>
      obtain ⟨k1, v1⟩ := p
      by_cases hk : k1 = k
      · rw [eraseA, if_pos hk] at h
        exact List.mem_cons_of_mem _ h
      · rw [eraseA, if_neg hk] at h
        rcases List.mem_cons.mp h with he | hm
        · exact he ▸ List.mem_cons_self _ _
        · exact List.mem_cons_of_mem _ (ih hm)

theorem setToL1_l2 (c : MultiLayerCache) (k : CKey) (v : CPayload) :
    (c.setToL1 k v).l2Cache = c.l2Cache := by
  simp only [MultiLayerCache.setToL1]
  split
  · split <;> rfl
  · rfl

theorem setToL1_l3 (c : MultiLayerCache) (k : CKey) (v : CPayload) :
    (c.setToL1 k v).l3Cache = c.l3Cache := by
  simp only [MultiLayerCache.setToL1]
  split
  · split <;> rfl
  · rfl

theorem setToL1_maxSize (c : MultiLayerCache) (k : CKey) (v : CPayload) :
    (c.setToL1 k v).l1MaxSize = c.l1MaxSize := by
  simp only [MultiLayerCache.setToL1]
  split
  · split <;> rfl
  · rfl

theorem setToL1_l1_sub (c : MultiLayerCache) (k : CKey) (v : CPayload)
    (q : CKey × CPayload) (h : q ∈ (c.setToL1 k v).l1Cache) :
    q ∈ c.l1Cache ∨ q = (k, v) := by
  have hmain : ∀ x, x ∈ (c.setToL1 k v).l1Cache → x ∈ setA c.l1Cache k v := by
    intro x hx
    simp only [MultiLayerCache.setToL1] at hx
    rcases hif : decide (c.l1MaxSize < (setA c.l1Cache k v).length) with _ | _
    · rw [if_neg (by simpa using hif)] at hx
      exact hx
    · rw [if_pos (by simpa using hif)] at hx
      rcases hlast : (k :: (if (lookA c.l1Cache k).isSome then eraseKey c.l1Order k
          else c.l1Order)).getLast? with _ | oldest
      · rw [hlast] at hx
        exact hx
      · rw [hlast] at hx
        exact mem_eraseA_sub _ _ _ hx
  exact mem_setA_sub _ _ _ _ (hmain q h)

theorem tc_setToL1 (st : Index) (c : MultiLayerCache) (k : CKey) (v : CPayload)
    (hc : TermCoherent st c)
    (hkv : ∀ t p, k = CKey.term t → v = CPayload.postings p → lookA st.index t = some p) :
    TermCoherent st (c.setToL1 k v) := by
  intro t p hm
  rcases hm with h1 | h2 | h3
  · rcases setToL1_l1_sub c k v _ h1 with hin | he
    · exact hc t p (Or.inl hin)
    · injection he with he1 he2
      exact hkv t p he1.symm he2.symm
  · rw [setToL1_l2] at h2
    exact hc t p (Or.inr (Or.inl h2))
  · rw [setToL1_l3] at h3
    exact hc t p (Or.inr (Or.inr h3))

theorem setToL2_l1 (l2ok : Bool) (c : MultiLayerCache) (k : CKey) (v : CPayload) :
    (MultiLayerCache.setToL2 l2ok c k v).1.l1Cache = c.l1Cache := by
  by_cases h : l2ok <;> simp [MultiLayerCache.setToL2, h]

theorem setToL2_l3 (l2ok : Bool) (c : MultiLayerCache) (k : CKey) (v : CPayload) :
    (MultiLayerCache.setToL2 l2ok c k v).1.l3Cache = c.l3Cache := by
  by_cases h : l2ok <;> simp [MultiLayerCache.setToL2, h]

theorem setToL2_maxSize (l2ok : Bool) (c : MultiLayerCache) (k : CKey) (v : CPayload) :
    (MultiLayerCache.setToL2 l2ok c k v).1.l1MaxSize = c.l1MaxSize := by
  by_cases h : l2ok <;> simp [MultiLayerCache.setToL2, h]

theorem setToL2_l1Order (l2ok : Bool) (c : MultiLayerCache) (k : CKey) (v : CPayload) :
    (MultiLayerCache.setToL2 l2ok c k v).1.l1Order = c.l1Order := by
  by_cases h : l2ok <;> simp [MultiLayerCache.setToL2, h]

theorem setToL2_l2_sub (l2ok : Bool) (c : MultiLayerCache) (k : CKey) (v : CPayload)
    (q : CKey × CPayload) (h : q ∈ (MultiLayerCache.setToL2 l2ok c k v).1.l2Cache) :
    q ∈ c.l2Cache ∨ q = (k, v) := by
  by_cases hok : l2ok
  · rw [MultiLayerCache.setToL2, if_pos hok] at h
    exact mem_setA_sub _ _ _ _ h
  · rw [MultiLayerCache.setToL2, if_neg hok] at h
    exact Or.inl h

theorem tc_setToL2 (st : Index) (l2ok : Bool) (c : MultiLayerCache) (k : CKey)
    (v : CPayload) (hc : TermCoherent st c)
    (hkv : ∀ t p, k = CKey.term t → v = CPayload.postings p → lookA st.index t = some p) :
    TermCoherent st (MultiLayerCache.setToL2 l2ok c k v).1 := by
  intro t p hm
  rcases hm with h1 | h2 | h3
  · rw [setToL2_l1] at h1
    exact hc t p (Or.inl h1)
  · rcases setToL2_l2_sub l2ok c k v _ h2 with hin | he
    · exact hc t p (Or.inr (Or.inl hin))
    · injection he with he1 he2
      exact hkv t p he1.symm he2.symm
  · rw [setToL2_l3] at h3
    exact hc t p (Or.inr (Or.inr h3))

theorem tc_Set (st : Index) (l2ok : Bool) (c : MultiLayerCache) (k : CKey)
    (v : CPayload) (hc : TermCoherent st c)
    (hkv : ∀ t p, k = CKey.term t → v = CPayload.postings p → lookA st.index t = some p) :
    TermCoherent st (MultiLayerCache.Set l2ok c k v).1 :=
  tc_setToL2 st l2ok (c.setToL1 k v) k v (tc_setToL1 st c k v hc hkv) hkv

theorem tc_stats (st : Index) (c : MultiLayerCache) (s : CacheStats)
    (hc : TermCoherent st c) : TermCoherent st { c with stats := s } :=
  fun t p hm => hc t p hm

theorem Get_l1_hit (l2ok : Bool) (c : MultiLayerCache) (k : CKey) (v : CPayload)
    (h1 : lookA c.l1Cache k = some v) :
    MultiLayerCache.Get l2ok c k =
      (some v, { c with l1Order := moveToFront c.l1Order k
                        stats := { c.stats with l1Hits := c.stats.l1Hits + 1 } }) := by
  simp only [MultiLayerCache.Get, h1]

theorem Get_l2_hit (l2ok : Bool) (c : MultiLayerCache) (k : CKey) (v : CPayload)
    (h1 : lookA c.l1Cache k = none) (h2 : lookA c.l2Cache k = some v) :
    MultiLayerCache.Get l2ok c k =
      (some v, MultiLayerCache.setToL1
        { c with stats := { c.stats with l1Misses := c.stats.l1Misses + 1
                                         l2Hits := c.stats.l2Hits + 1 } } k v) := by
  simp only [MultiLayerCache.Get, h1, h2]

theorem Get_l3_hit (l2ok : Bool) (c : MultiLayerCache) (k : CKey) (v : CPayload)
    (h1 : lookA c.l1Cache k = none) (h2 : lookA c.l2Cache k = none)
    (h3 : lookA c.l3Cache k = some v) :
    MultiLayerCache.Get l2ok c k =
      (some v, (MultiLayerCache.setToL2 l2ok (MultiLayerCache.setToL1
        { c with stats := { c.stats with l1Misses := c.stats.l1Misses + 1
                                         l2Misses := c.stats.l2Misses + 1
                                         l3Hits := c.stats.l3Hits + 1 } } k v) k v).1) := by
  simp only [MultiLayerCache.Get, h1, h2, h3]

theorem Get_miss (l2ok : Bool) (c : MultiLayerCache) (k : CKey)
    (h1 : lookA c.l1Cache k = none) (h2 : lookA c.l2Cache k = none)
    (h3 : lookA c.l3Cache k = none) :
    MultiLayerCache.Get l2ok c k =
      (none, { c with stats := { c.stats with l1Misses := c.stats.l1Misses + 1
                                              l2Misses := c.stats.l2Misses + 1
                                              l3Misses := c.stats.l3Misses + 1 } }) := by
  simp only [MultiLayerCache.Get, h1, h2, h3]

theorem Get_snd_tc (st : Index) (l2ok : Bool) (c : MultiLayerCache) (k : CKey)
    (hc : TermCoherent st c) : TermCoherent st (MultiLayerCache.Get l2ok c k).2 := by
  rcases h1 : lookA c.l1Cache k with _ | v
  · rcases h2 : lookA c.l2Cache k with _ | v
    · rcases h3 : lookA c.l3Cache k with _ | v
      · rw [Get_miss l2ok c k h1 h2 h3]
        exact fun t p hm => hc t p hm
      · rw [Get_l3_hit l2ok c k v h1 h2 h3]
        have hmem : (k, v) ∈ c.l3Cache := lookA_mem _ _ _ h3
        have hkv : ∀ t p, k = CKey.term t → v = CPayload.postings p →
            lookA st.index t = some p := by
          intro t p hk hv
          subst hk
          subst hv
          exact hc t p (Or.inr (Or.inr hmem))
        exact tc_setToL2 st l2ok _ k v
          (tc_setToL1 st _ k v (fun t p hm => hc t p hm) hkv) hkv
    · rw [Get_l2_hit l2ok c k v h1 h2]
      have hmem : (k, v) ∈ c.l2Cache := lookA_mem _ _ _ h2
      have hkv : ∀ t p, k = CKey.term t → v = CPayload.postings p →
          lookA st.index t = some p := by
        intro t p hk hv
        subst hk
        subst hv
        exact hc t p (Or.inr (Or.inl hmem))
      exact tc_setToL1 st _ k v (fun t p hm => hc t p hm) hkv
  · rw [Get_l1_hit l2ok c k v h1]
    exact fun t p hm => hc t p hm

theorem Get_fst_mem (l2ok : Bool) (c : MultiLayerCache) (k : CKey) (v : CPayload)
    (h : (MultiLayerCache.Get l2ok c k).1 = some v) :
    (k, v) ∈ c.l1Cache ∨ (k, v) ∈ c.l2Cache ∨ (k, v) ∈ c.l3Cache := by
  rcases h1 : lookA c.l1Cache k with _ | v1
  · rcases h2 : lookA c.l2Cache k with _ | v2
    · rcases h3 : lookA c.l3Cache k with _ | v3
      · rw [Get_miss l2ok c k h1 h2 h3] at h
        exact Option.noConfusion h
      · rw [Get_l3_hit l2ok c k v3 h1 h2 h3] at h
        injection h with hv
        subst hv
        exact Or.inr (Or.inr (lookA_mem _ _ _ h3))
    · rw [Get_l2_hit l2ok c k v2 h1 h2] at h
      injection h with hv
      subst hv
      exact Or.inr (Or.inl (lookA_mem _ _ _ h2))
  · rw [Get_l1_hit l2ok c k v1 h1] at h
    injection h with hv
    subst hv
    exact Or.inl (lookA_mem _ _ _ h1)

/-! ### L1 LRU well-formedness is preserved by the cache operations -/

theorem eraseKey_eq_erase (l : List CKey) (k : CKey) : eraseKey l k = l.erase k := by
  induction l with
  | nil => rfl
  | cons a r ih =>
      rw [eraseKey, List.erase_cons]
      by_cases h : a = k
      · rw [if_pos h, if_pos (by simp [h])]
      · rw [if_neg h, if_neg (by simp [h]), ih]

theorem lookA_eraseA_ne {κ α : Type} [DecidableEq κ] (m : List (κ × α)) (j k2 : κ)
    (h : j ≠ k2) : lookA (eraseA m j) k2 = lookA m k2 := by
  induction m with
  | nil => rfl
  | cons p r ih =>
      obtain ⟨k1, v1⟩ := p
      by_cases hk : k1 = j
      · rw [eraseA, if_pos hk, lookA, if_neg (by rw [hk]; exact h)]
      · rw [eraseA, if_neg hk]
        by_cases hk2 : k1 = k2
        · rw [lookA, if_pos hk2, lookA, if_pos hk2]
        · rw [lookA, if_neg hk2, lookA, if_neg hk2, ih]

theorem keysA_eraseA {α : Type} (m : List (CKey × α)) (k : CKey) :
    keysA (eraseA m k) = eraseKey (keysA m) k := by
  induction m with
  | nil => rfl
  | cons p r ih =>
      obtain ⟨k1, v1⟩ := p
      by_cases hk : k1 = k
      · rw [eraseA, if_pos hk, keysA_cons, eraseKey, if_pos hk]
      · rw [eraseA, if_neg hk, keysA_cons, keysA_cons, eraseKey, if_neg hk, ih]

theorem setToL1_no_evict (c : MultiLayerCache) (k : CKey) (v : CPayload)
    (h : ¬ c.l1MaxSize < (setA c.l1Cache k v).length) :
    c.setToL1 k v = { c with l1Cache := setA c.l1Cache k v
                             l1Order := k :: (if (lookA c.l1Cache k).isSome
                               then eraseKey c.l1Order k else c.l1Order) } := by
  simp only [MultiLayerCache.setToL1, if_neg h]

theorem setToL1_evict_none (c : MultiLayerCache) (k : CKey) (v : CPayload)
    (h : c.l1MaxSize < (setA c.l1Cache k v).length)
    (hlast : ((k :: (if (lookA c.l1Cache k).isSome then eraseKey c.l1Order k
      else c.l1Order)) : List CKey).getLast? = none) :
    c.setToL1 k v = { c with l1Cache := setA c.l1Cache k v
                             l1Order := k :: (if (lookA c.l1Cache k).isSome
                               then eraseKey c.l1Order k else c.l1Order) } := by
  simp only [MultiLayerCache.setToL1, if_pos h, hlast]

theorem setToL1_evict (c : MultiLayerCache) (k : CKey) (v : CPayload) (oldest : CKey)
    (h : c.l1MaxSize < (setA c.l1Cache k v).length)
    (hlast : ((k :: (if (lookA c.l1Cache k).isSome then eraseKey c.l1Order k
      else c.l1Order)) : List CKey).getLast? = some oldest) :
    c.setToL1 k v = { c with
      l1Cache := eraseA (setA c.l1Cache k v) oldest
      l1Order := ((k :: (if (lookA c.l1Cache k).isSome then eraseKey c.l1Order k
        else c.l1Order)) : List CKey).dropLast
      stats := { c.stats with evictions := c.stats.evictions + 1 } } := by
  simp only [MultiLayerCache.setToL1, if_pos h, hlast]

theorem setToL1_wf (c : MultiLayerCache) (k : CKey) (v : CPayload)
    (hwf : L1WF c) (hmax : 0 < c.l1MaxSize) :
    L1WF (c.setToL1 k v) ∧ lookA (c.setToL1 k v).l1Cache k = some v := by
  obtain ⟨hnd, hperm⟩ := hwf
  have hmem_iff : ∀ a, a ∈ c.l1Order ↔ a ∈ keysA c.l1Cache := fun a => hperm.mem_iff
  set o1 := (if (lookA c.l1Cache k).isSome then eraseKey c.l1Order k else c.l1Order)
    with ho1
  have ho1nd : o1.Nodup := by
    rw [ho1]
    split
    · rw [eraseKey_eq_erase]
      exact hnd.erase _
    · exact hnd
  have ho1k : k ∉ o1 := by
    rw [ho1]
    split
    · rw [eraseKey_eq_erase]
      exact hnd.not_mem_erase
    · next h =>
        intro hc
        have hnone : lookA c.l1Cache k = none :=
          Option.not_isSome_iff_eq_none.mp (by simpa using h)
        exact ((lookA_eq_none_iff _ _).mp hnone) ((hmem_iff k).mp hc)
  have hpermA : (k :: o1).Perm (keysA (setA c.l1Cache k v)) := by
    rw [keysA_setA, ho1]
    by_cases hks : (lookA c.l1Cache k).isSome
    · rw [if_pos hks, if_pos ((lookA_isSome_iff _ _).mp hks), eraseKey_eq_erase]
      have hko : k ∈ c.l1Order := (hmem_iff k).mpr ((lookA_isSome_iff _ _).mp hks)
      exact ((List.perm_cons_erase hko).symm).trans hperm
    · rw [if_neg hks, if_neg (fun hc => hks ((lookA_isSome_iff _ _).mpr hc))]
      exact (hperm.cons k).trans (List.perm_append_singleton k _).symm
  have hnodup2 : (k :: o1).Nodup := List.nodup_cons.mpr ⟨ho1k, ho1nd⟩
  by_cases hcap : c.l1MaxSize < (setA c.l1Cache k v).length
  · rcases hlast : (k :: o1).getLast? with _ | oldest
    · rw [ho1] at hlast
      rw [setToL1_evict_none c k v hcap hlast, ← ho1]
      exact ⟨⟨hnodup2, hpermA⟩, lookA_setA_self _ _ _⟩
    · have hlast2 := hlast
      rw [ho1] at hlast2
      rw [setToL1_evict c k v oldest hcap hlast2, ← ho1]
      have hcons : ((k :: o1) : List CKey) ≠ [] := by simp
      have hglast : (k :: o1).getLast hcons = oldest := by
        have he := List.getLast?_eq_getLast (k :: o1) hcons
        rw [hlast] at he
        injection he with he2
        exact he2.symm
      have hsplit : (k :: o1).dropLast ++ [oldest] = k :: o1 := by
        rw [← hglast]
        exact List.dropLast_append_getLast _
      have holdin : oldest ∈ (k :: o1) := by
        rw [← hglast]
        exact List.getLast_mem _
      have hlen2 : (k :: o1).length = (setA c.l1Cache k v).length := by
        rw [hpermA.length_eq]
        simp [keysA]
      have ho1ne : o1 ≠ [] := by
        intro hc
        rw [hc] at hlen2
        simp at hlen2
        omega
      have holdk : oldest ≠ k := by
        intro hc
        have hlast3 : (k :: o1).getLast? = o1.getLast? := by
          rcases hco : o1 with _ | ⟨b, l2⟩
          · exact absurd hco ho1ne
          · exact List.getLast?_cons_cons
        rw [hlast3] at hlast
        have hmem : k ∈ o1 := by
          rcases hco : o1 with _ | ⟨b, l2⟩
          · exact absurd hco ho1ne
          · rw [hco] at hlast
            have hg := List.getLast?_eq_getLast (b :: l2) (by simp)
            rw [hg] at hlast
            injection hlast with hl2
            rw [← hc, ← hl2]
            exact List.getLast_mem _
        exact ho1k hmem
      have holdnot : oldest ∉ (k :: o1).dropLast := by
        have hnodup3 := hnodup2
        rw [← hsplit, List.nodup_append] at hnodup3
        intro hc
        exact hnodup3.2.2 hc (List.mem_singleton.mpr rfl)
      refine ⟨⟨?_, ?_⟩, ?_⟩
      · exact (List.dropLast_sublist _).nodup hnodup2
      · show ((k :: o1).dropLast).Perm (keysA (eraseA (setA c.l1Cache k v) oldest))
        rw [keysA_eraseA, eraseKey_eq_erase]
        have hpe := List.Perm.erase oldest hpermA
        have herase : (k :: o1).erase oldest = (k :: o1).dropLast := by
          rw [← hsplit, List.erase_append_right _ holdnot]
          simp
        rw [herase] at hpe
        exact hpe
      · show lookA (eraseA (setA c.l1Cache k v) oldest) k = some v
        rw [lookA_eraseA_ne _ _ _ holdk, lookA_setA_self]
  · rw [setToL1_no_evict c k v hcap, ← ho1]
    exact ⟨⟨hnodup2, hpermA⟩, lookA_setA_self _ _ _⟩

theorem moveToFront_nodup_perm (order keys : List CKey) (k : CKey)
    (hnd : order.Nodup) (hperm : order.Perm keys) :
    (moveToFront order k).Nodup ∧ (moveToFront order k).Perm keys := by
  rw [moveToFront]
  split
  · next hmem =>
      rw [eraseKey_eq_erase]
      refine ⟨List.nodup_cons.mpr ⟨hnd.not_mem_erase, hnd.erase _⟩, ?_⟩
      exact ((List.perm_cons_erase hmem).symm).trans hperm
  · exact ⟨hnd, hperm⟩

theorem setToL2_wf (l2ok : Bool) (c : MultiLayerCache) (k : CKey) (v : CPayload)
    (h : L1WF c) : L1WF (MultiLayerCache.setToL2 l2ok c k v).1 := by
  unfold L1WF
  rw [setToL2_l1Order, setToL2_l1]
  exact h

theorem Get_wf (l2ok : Bool) (c : MultiLayerCache) (k : CKey)
    (hwf : L1WF c) (hmax : 0 < c.l1MaxSize) :
    L1WF (MultiLayerCache.Get l2ok c k).2 ∧
      (MultiLayerCache.Get l2ok c k).2.l1MaxSize = c.l1MaxSize := by
  rcases h1 : lookA c.l1Cache k with _ | v
  · rcases h2 : lookA c.l2Cache k with _ | v
    · rcases h3 : lookA c.l3Cache k with _ | v
      · rw [Get_miss l2ok c k h1 h2 h3]
        exact ⟨hwf, rfl⟩
      · rw [Get_l3_hit l2ok c k v h1 h2 h3]
        refine ⟨setToL2_wf _ _ _ _ (setToL1_wf _ k v ?_ ?_).1, ?_⟩
        · exact hwf
        · exact hmax
        · show (MultiLayerCache.setToL2 l2ok _ k v).1.l1MaxSize = c.l1MaxSize
          rw [setToL2_maxSize, setToL1_maxSize]
    · rw [Get_l2_hit l2ok c k v h1 h2]
      refine ⟨(setToL1_wf _ k v ?_ ?_).1, ?_⟩
      · exact hwf
      · exact hmax
      · show (MultiLayerCache.setToL1 _ k v).l1MaxSize = c.l1MaxSize
        rw [setToL1_maxSize]
  · rw [Get_l1_hit l2ok c k v h1]
    exact ⟨moveToFront_nodup_perm c.l1Order (keysA c.l1Cache) k hwf.1 hwf.2, rfl⟩

theorem Set_wf (l2ok : Bool) (c : MultiLayerCache) (k : CKey) (v : CPayload)
    (hwf : L1WF c) (hmax : 0 < c.l1MaxSize) :
    L1WF (MultiLayerCache.Set l2ok c k v).1 ∧
      (MultiLayerCache.Set l2ok c k v).1.l1MaxSize = c.l1MaxSize := by
  constructor
  · show L1WF (MultiLayerCache.setToL2 l2ok (c.setToL1 k v) k v).1
    exact setToL2_wf _ _ _ _ (setToL1_wf c k v hwf hmax).1
  · show (MultiLayerCache.setToL2 l2ok (c.setToL1 k v) k v).1.l1MaxSize = c.l1MaxSize
    rw [setToL2_maxSize, setToL1_maxSize]

theorem candStep_wf (l2ok : Bool) (st : Index) (a : List String × MultiLayerCache)
    (t : String) (hwf : L1WF a.2) (hmax : 0 < a.2.l1MaxSize) :
    L1WF (candStep l2ok st a t).2 ∧
      (candStep l2ok st a t).2.l1MaxSize = a.2.l1MaxSize := by
  have hG := Get_wf l2ok a.2 (CKey.term t) hwf hmax
  rcases hget : MultiLayerCache.Get l2ok a.2 (CKey.term t) with ⟨o, c1⟩
  rw [hget] at hG
  have hc1 : L1WF c1 := hG.1
  have hm1 : c1.l1MaxSize = a.2.l1MaxSize := hG.2
  have hmax1 : 0 < c1.l1MaxSize := by
    rw [hm1]
    exact hmax
  rcases o with _ | p
  · simp only [candStep, hget]
    rcases hidx : lookA st.index t with _ | p2
    · simp only [hidx]
      exact ⟨hc1, hm1⟩
    · simp only [hidx]
      have hS := Set_wf l2ok c1 (CKey.term t) (CPayload.postings p2) hc1 hmax1
      exact ⟨hS.1, hS.2.trans hm1⟩
  · rcases p with d | p2 | rs
    · simp only [candStep, hget]
      rcases hidx : lookA st.index t with _ | p2
      · simp only [hidx]
        exact ⟨hc1, hm1⟩
      · simp only [hidx]
        have hS := Set_wf l2ok c1 (CKey.term t) (CPayload.postings p2) hc1 hmax1
        exact ⟨hS.1, hS.2.trans hm1⟩
    · simp only [candStep, hget]
      exact ⟨hc1, hm1⟩
    · simp only [candStep, hget]
      rcases hidx : lookA st.index t with _ | p2
      · simp only [hidx]
        exact ⟨hc1, hm1⟩
      · simp only [hidx]
        have hS := Set_wf l2ok c1 (CKey.term t) (CPayload.postings p2) hc1 hmax1
        exact ⟨hS.1, hS.2.trans hm1⟩

theorem candFold_wf (l2ok : Bool) (st : Index) (terms : List String) :
    ∀ (a : List String × MultiLayerCache), L1WF a.2 → 0 < a.2.l1MaxSize →
      L1WF (terms.foldl (candStep l2ok st) a).2 ∧
        (terms.foldl (candStep l2ok st) a).2.l1MaxSize = a.2.l1MaxSize := by
  induction terms with
  | nil =>
      intro a h1 h2
      exact ⟨h1, rfl⟩
  | cons t r ih =>
      intro a h1 h2
      have hs := candStep_wf l2ok st a t h1 h2
      have hr := ih (candStep l2ok st a t) hs.1 (by rw [hs.2]; exact h2)
      simp only [List.foldl_cons]
      exact ⟨hr.1, hr.2.trans hs.2⟩

theorem performSearch_wf (lg : ℚ → ℚ) (stem : String → String) (l2ok : Bool)
    (st : Index) (c : MultiLayerCache) (q : String) (k : Nat)
    (hwf : L1WF c) (hmax : 0 < c.l1MaxSize) :
    L1WF (performSearch lg stem l2ok st c q k).2 ∧
      (performSearch lg stem l2ok st c q k).2.l1MaxSize = c.l1MaxSize :=
  candFold_wf l2ok st (tokenDeduper (Tokenize stem q)) ([], c) hwf hmax

theorem SetQueryResult_wf (c : MultiLayerCache) (q : String) (rs : List (String × ℚ))
    (hwf : L1WF c) (hmax : 0 < c.l1MaxSize) :
    L1WF (MultiLayerCache.SetQueryResult c q rs) ∧
      lookA (MultiLayerCache.SetQueryResult c q rs).l1Cache (CKey.query q)
        = some (CPayload.query rs) ∧
      (MultiLayerCache.SetQueryResult c q rs).l1MaxSize = c.l1MaxSize := by
  have h := setToL1_wf (MultiLayerCache.setToL3 c (CKey.query q) (CPayload.query rs))
    (CKey.query q) (CPayload.query rs) hwf hmax
  refine ⟨h.1, h.2, ?_⟩
  show (MultiLayerCache.setToL1 (MultiLayerCache.setToL3 c (CKey.query q)
    (CPayload.query rs)) (CKey.query q) (CPayload.query rs)).l1MaxSize = c.l1MaxSize
  rw [setToL1_maxSize]
  rfl

theorem searchMiss_establishes (lg : ℚ → ℚ) (stem : String → String) (l2ok : Bool)
    (st : Index) (c : MultiLayerCache) (q : String) (k : Nat)
    (hwf : L1WF c) (hmax : 0 < c.l1MaxSize) :
    L1WF (searchMiss lg stem l2ok st c q k).2 ∧
      lookA (searchMiss lg stem l2ok st c q k).2.l1Cache (CKey.query q)
        = some (CPayload.query (searchMiss lg stem l2ok st c q k).1) ∧
      (searchMiss lg stem l2ok st c q k).2.l1MaxSize = c.l1MaxSize := by
  have hp := performSearch_wf lg stem l2ok st c q k hwf hmax
  have hs := SetQueryResult_wf (performSearch lg stem l2ok st c q k).2 q
    (performSearch lg stem l2ok st c q k).1 hp.1 (by rw [hp.2]; exact hmax)
  exact ⟨hs.1, hs.2.1, hs.2.2.trans hp.2⟩

theorem searchMiss_wf_of (lg : ℚ → ℚ) (stem : String → String) (l2ok : Bool)
    (st : Index) (c0 c : MultiLayerCache) (q : String) (k : Nat)
    (hwf : L1WF c) (hm : c.l1MaxSize = c0.l1MaxSize) (hmax : 0 < c0.l1MaxSize) :
    L1WF (searchMiss lg stem l2ok st c q k).2 ∧
      lookA (searchMiss lg stem l2ok st c q k).2.l1Cache (CKey.query q)
        = some (CPayload.query (searchMiss lg stem l2ok st c q k).1) ∧
      (searchMiss lg stem l2ok st c q k).2.l1MaxSize = c0.l1MaxSize := by
  have h := searchMiss_establishes lg stem l2ok st c q k hwf (by rw [hm]; exact hmax)
  exact ⟨h.1, h.2.1, h.2.2.trans hm⟩

theorem Search_establishes (lg : ℚ → ℚ) (stem : String → String) (l2ok : Bool)
    (st : Index) (c : MultiLayerCache) (q : String) (k : Nat)
    (hwf : L1WF c) (hmax : 0 < c.l1MaxSize) :
    L1WF (Search lg stem l2ok st c q k).2 ∧
      lookA (Search lg stem l2ok st c q k).2.l1Cache (CKey.query q)
        = some (CPayload.query (Search lg stem l2ok st c q k).1) ∧
      (Search lg stem l2ok st c q k).2.l1MaxSize = c.l1MaxSize := by
  rcases h1 : lookA c.l1Cache (CKey.query q) with _ | v
  · rcases h2 : lookA c.l2Cache (CKey.query q) with _ | v
    · rcases h3 : lookA c.l3Cache (CKey.query q) with _ | v
      · simp only [Search, MultiLayerCache.GetQueryResult,
          Get_miss l2ok c (CKey.query q) h1 h2 h3]
        refine searchMiss_wf_of lg stem l2ok st c _ q k ?_ ?_ ?_
        · exact hwf
        · rfl
        · exact hmax
      · rcases v with d | p2 | rs
        · simp only [Search, MultiLayerCache.GetQueryResult,
            Get_l3_hit l2ok c (CKey.query q) (CPayload.doc d) h1 h2 h3]
          refine searchMiss_wf_of lg stem l2ok st c _ q k
            (setToL2_wf _ _ _ _ (setToL1_wf _ _ _ ?_ ?_).1) ?_ ?_
          · exact hwf
          · exact hmax
          · show (MultiLayerCache.setToL2 l2ok _ (CKey.query q)
              (CPayload.doc d)).1.l1MaxSize = c.l1MaxSize
            rw [setToL2_maxSize, setToL1_maxSize]
          · exact hmax
        · simp only [Search, MultiLayerCache.GetQueryResult,
            Get_l3_hit l2ok c (CKey.query q) (CPayload.postings p2) h1 h2 h3]
          refine searchMiss_wf_of lg stem l2ok st c _ q k
            (setToL2_wf _ _ _ _ (setToL1_wf _ _ _ ?_ ?_).1) ?_ ?_
          · exact hwf
          · exact hmax
          · show (MultiLayerCache.setToL2 l2ok _ (CKey.query q)
              (CPayload.postings p2)).1.l1MaxSize = c.l1MaxSize
            rw [setToL2_maxSize, setToL1_maxSize]
          · exact hmax
        · simp only [Search, MultiLayerCache.GetQueryResult,
            Get_l3_hit l2ok c (CKey.query q) (CPayload.query rs) h1 h2 h3]
          refine ⟨setToL2_wf _ _ _ _ (setToL1_wf _ _ _ ?_ ?_).1, ?_, ?_⟩
          · exact hwf
          · exact hmax
          · show lookA (MultiLayerCache.setToL2 l2ok _ (CKey.query q)
              (CPayload.query rs)).1.l1Cache (CKey.query q)
              = some (CPayload.query rs)
            rw [setToL2_l1]
            refine (setToL1_wf _ _ _ ?_ ?_).2
            · exact hwf
            · exact hmax
          · show (MultiLayerCache.setToL2 l2ok _ (CKey.query q)
              (CPayload.query rs)).1.l1MaxSize = c.l1MaxSize
            rw [setToL2_maxSize, setToL1_maxSize]
    · rcases v with d | p2 | rs
      · simp only [Search, MultiLayerCache.GetQueryResult,
          Get_l2_hit l2ok c (CKey.query q) (CPayload.doc d) h1 h2]
        refine searchMiss_wf_of lg stem l2ok st c _ q k
          ((setToL1_wf _ _ _ ?_ ?_).1) ?_ ?_
        · exact hwf
        · exact hmax
        · show (MultiLayerCache.setToL1 _ (CKey.query q)
            (CPayload.doc d)).l1MaxSize = c.l1MaxSize
          rw [setToL1_maxSize]
        · exact hmax
      · simp only [Search, MultiLayerCache.GetQueryResult,
          Get_l2_hit l2ok c (CKey.query q) (CPayload.postings p2) h1 h2]
        refine searchMiss_wf_of lg stem l2ok st c _ q k
          ((setToL1_wf _ _ _ ?_ ?_).1) ?_ ?_
        · exact hwf
        · exact hmax
        · show (MultiLayerCache.setToL1 _ (CKey.query q)
            (CPayload.postings p2)).l1MaxSize = c.l1MaxSize
          rw [setToL1_maxSize]
        · exact hmax
      · simp only [Search, MultiLayerCache.GetQueryResult,
          Get_l2_hit l2ok c (CKey.query q) (CPayload.query rs) h1 h2]
        refine ⟨(setToL1_wf _ _ _ ?_ ?_).1, ?_, ?_⟩
        · exact hwf
        · exact hmax
        · refine (setToL1_wf _ _ _ ?_ ?_).2
          · exact hwf
          · exact hmax
        · show (MultiLayerCache.setToL1 _ (CKey.query q)
            (CPayload.query rs)).l1MaxSize = c.l1MaxSize
          rw [setToL1_maxSize]
  · rcases v with d | p2 | rs
    · simp only [Search, MultiLayerCache.GetQueryResult,
        Get_l1_hit l2ok c (CKey.query q) (CPayload.doc d) h1]
      refine searchMiss_wf_of lg stem l2ok st c _ q k ?_ ?_ ?_
      · exact moveToFront_nodup_perm c.l1Order (keysA c.l1Cache) (CKey.query q)
          hwf.1 hwf.2
      · rfl
      · exact hmax
    · simp only [Search, MultiLayerCache.GetQueryResult,
        Get_l1_hit l2ok c (CKey.query q) (CPayload.postings p2) h1]
      refine searchMiss_wf_of lg stem l2ok st c _ q k ?_ ?_ ?_
      · exact moveToFront_nodup_perm c.l1Order (keysA c.l1Cache) (CKey.query q)
          hwf.1 hwf.2
      · rfl
      · exact hmax
    · simp only [Search, MultiLayerCache.GetQueryResult,
        Get_l1_hit l2ok c (CKey.query q) (CPayload.query rs) h1]
      refine ⟨?_, ?_, ?_⟩
      · exact moveToFront_nodup_perm c.l1Order (keysA c.l1Cache) (CKey.query q)
          hwf.1 hwf.2
      · exact h1
      · trivial

theorem candStep_eq (l2ok : Bool) (st : Index) (cs : List String) (c : MultiLayerCache)
    (t : String) (hc : TermCoherent st c) :
    ((candStep l2ok st (cs, c) t).1 = (match lookA st.index t with
      | none => cs
      | some p => insKeys cs (keysA p)) ∧
    TermCoherent st (candStep l2ok st (cs, c) t).2) := by
  rcases hg : MultiLayerCache.Get l2ok c (CKey.term t) with ⟨hv, c1⟩
  have hc1 : TermCoherent st c1 := by
    have htc := Get_snd_tc st l2ok c (CKey.term t) hc
    rwa [hg] at htc
  rcases hv with _ | v
  · rcases hl : lookA st.index t with _ | p
    · simp only [candStep, hg, hl]
      exact ⟨by trivial, hc1⟩
    · simp only [candStep, hg, hl]
      refine ⟨by trivial, ?_⟩
      refine tc_Set st l2ok c1 (CKey.term t) (CPayload.postings p) hc1 ?_
      intro t2 p2 hk hv2
      injection hk with ht2
      injection hv2 with hp2
      subst ht2
      subst hp2
      exact hl
  · rcases v with tokens | p | rs
    · rcases hl : lookA st.index t with _ | p
      · simp only [candStep, hg, hl]
        exact ⟨by trivial, hc1⟩
      · simp only [candStep, hg, hl]
        refine ⟨by trivial, ?_⟩
        refine tc_Set st l2ok c1 (CKey.term t) (CPayload.postings p) hc1 ?_
        intro t2 p2 hk hv2
        injection hk with ht2
        injection hv2 with hp2
        subst ht2
        subst hp2
        exact hl
    · have hlook : lookA st.index t = some p := by
        have hmem := Get_fst_mem l2ok c (CKey.term t) (CPayload.postings p) (by rw [hg])
        exact hc t p hmem
      simp only [candStep, hg, hlook]
      exact ⟨by trivial, hc1⟩
    · rcases hl : lookA st.index t with _ | p
      · simp only [candStep, hg, hl]
        exact ⟨by trivial, hc1⟩
      · simp only [candStep, hg, hl]
        refine ⟨by trivial, ?_⟩
        refine tc_Set st l2ok c1 (CKey.term t) (CPayload.postings p) hc1 ?_
        intro t2 p2 hk hv2
        injection hk with ht2
        injection hv2 with hp2
        subst ht2
        subst hp2
        exact hl

theorem candFold_eq (l2ok : Bool) (st : Index) (terms : List String) :
    ∀ (cs : List String) (c : MultiLayerCache), TermCoherent st c →
      ((terms.foldl (candStep l2ok st) (cs, c)).1 =
        terms.foldl (fun cs2 t =>
          match lookA st.index t with
          | none => cs2
          | some p => insKeys cs2 (keysA p)) cs ∧
      TermCoherent st (terms.foldl (candStep l2ok st) (cs, c)).2) := by
  induction terms with
  | nil => intro cs c hc; exact ⟨rfl, hc⟩
  | cons t rest ih =>
      intro cs c hc
      rw [List.foldl_cons, List.foldl_cons]
      obtain ⟨h1, h2⟩ := candStep_eq l2ok st cs c t hc
      have hp : candStep l2ok st (cs, c) t =
          ((candStep l2ok st (cs, c) t).1, (candStep l2ok st (cs, c) t).2) := rfl
      rw [hp, h1]
      exact ih _ _ h2

theorem insertionSort_sorted_desc (l : List (String × ℚ)) :
    List.Pairwise (fun a b : String × ℚ => b.2 ≤ a.2) (List.insertionSort scoreRel l) :=
  (List.sorted_insertionSort scoreRel l).imp (fun h => h)

theorem mem_insertionSort_score (l : List (String × ℚ)) (a : String × ℚ) :
    a ∈ List.insertionSort scoreRel l ↔ a ∈ l :=
  (List.perm_insertionSort scoreRel l).mem_iff

theorem scoreLoop_eq_foldl (lg : ℚ → ℚ) (st : Index) (terms cands : List String) :
    scoreLoop lg st terms cands = terms.foldl (scoreTermAll lg st cands) [] := rfl

theorem scoreLoop_nodup_keys (lg : ℚ → ℚ) (st : Index) (terms cands : List String) :
    (keysA (scoreLoop lg st terms cands)).Nodup := by
  rw [scoreLoop_eq_foldl]
  exact foldl_scoreTermAll_nodup lg st cands terms [] (by simp [keysA])

theorem scoreLoop_mem_cand (lg : ℚ → ℚ) (st : Index) (terms cands : List String)
    (r : String × ℚ) (hr : r ∈ scoreLoop lg st terms cands) : r.1 ∈ cands := by
  have hk : r.1 ∈ keysA (scoreLoop lg st terms cands) :=
    (mem_keysA _ _).mpr ⟨r.2, by simpa using hr⟩
  rw [scoreLoop_eq_foldl] at hk
  rcases (foldl_scoreTermAll_keys lg st cands terms [] r.1).mp hk with hnil | ⟨t, ht, hp⟩
  · simp [keysA] at hnil
  · exact hp.2.1

theorem getA_index_of_lookA (st : Index) (t : String) (p : List (String × List Nat))
    (h : lookA st.index t = some p) : getA st.index t [] = p := by
  rw [getA_eq_lookA, h]
  rfl

theorem scoreLoop_keys_iff_cand (lg : ℚ → ℚ) (st : Index) (terms : List String)
    (hinv : IndexInv st) (d : String) :
    (d ∈ keysA (scoreLoop lg st terms (candLoop st terms)) ↔ d ∈ candLoop st terms) := by
  rw [scoreLoop_eq_foldl]
  rw [foldl_scoreTermAll_keys lg st (candLoop st terms) terms [] d]
  constructor
  · rintro (hnil | ⟨t, ht, hp⟩)
    · simp [keysA] at hnil
    · exact hp.2.1
  · intro hd
    obtain ⟨t, ht, p, hlp, hdp⟩ := (mem_candLoop st terms d).mp hd
    have hgp : getA st.index t [] = p := getA_index_of_lookA st t p hlp
    have hdf : getA st.docFreq t 0 ≠ 0 := by
      rw [hinv.freq_eq t, hgp]
      intro hc
      have hne : p ≠ [] := by
        intro he
        rw [he] at hdp
        simp [keysA] at hdp
      rw [List.length_eq_zero] at hc
      exact hne hc
    have htf : (getA (getA st.index t []) d []).length ≠ 0 := by
      rw [hgp]
      obtain ⟨v, hv⟩ := (mem_keysA _ _).mp hdp
      have hnd : (keysA p).Nodup := by
        have := hinv.inner_nodup t
        rwa [hgp] at this
      have hvv : getA p d [] = v := by
        rw [getA_eq_lookA, nodup_lookA_of_mem _ _ _ hnd hv]
        rfl
      rw [hvv]
      intro hc
      rw [List.length_eq_zero] at hc
      exact hinv.pos_nonempty t (d, v) (by rw [hgp]; exact hv) hc
    exact Or.inr ⟨t, ht, hdf, hd, htf⟩

theorem scoreLoop_length_eq (lg : ℚ → ℚ) (st : Index) (terms : List String)
    (hinv : IndexInv st) :
    (scoreLoop lg st terms (candLoop st terms)).length = (candLoop st terms).length := by
  have hperm : (keysA (scoreLoop lg st terms (candLoop st terms))).Perm (candLoop st terms) :=
    (List.perm_ext_iff_of_nodup (scoreLoop_nodup_keys lg st terms _)
      (nodup_candLoop st terms)).mpr (fun a => scoreLoop_keys_iff_cand lg st terms hinv a)
  have hlen : (keysA (scoreLoop lg st terms (candLoop st terms))).length =
      (scoreLoop lg st terms (candLoop st terms)).length := by
    simp [keysA]
  rw [← hlen, hperm.length_eq]

theorem scoreLoop_score (lg : ℚ → ℚ) (st : Index) (terms : List String) (r : String × ℚ)
    (hr : r ∈ scoreLoop lg st terms (candLoop st terms)) :
    r.2 = bm25Score lg st terms r.1 := by
  have hnd := scoreLoop_nodup_keys lg st terms (candLoop st terms)
  have hval : getA (scoreLoop lg st terms (candLoop st terms)) r.1 0 = r.2 := by
    rw [getA_eq_lookA, nodup_lookA_of_mem _ _ _ hnd (by simpa using hr)]
    rfl
  have hdm : r.1 ∈ candLoop st terms := scoreLoop_mem_cand lg st terms _ r hr
  have hget : getA (scoreLoop lg st terms (candLoop st terms)) r.1 0 =
      ((terms.map (fun t =>
        if getA st.docFreq t 0 ≠ 0 ∧ (getA (getA st.index t []) r.1 []).length ≠ 0 ∧
            r.1 ∈ candLoop st terms
        then contribTerm (idfOf lg st t) st t r.1 else 0)).sum) := by
    rw [scoreLoop_eq_foldl]
    have hg := foldl_scoreTermAll_getA lg st (candLoop st terms)
      (nodup_candLoop st terms) terms [] r.1
    simpa [getA] using hg
  rw [← hval, hget, bm25Score_eq_sum]
  simp [hdm]

/-! ### Claim C4: performSearch computes BM25, sorts descending, truncates -/

/-- C4: on the search path, each returned result carries exactly the claimed
BM25 score of its document — the sum over the deduplicated query terms with
nonzero document frequency of idf*(tf*(k1+1))/(tf+k1*(1-b+b*dl/avgdl)) with
idf = lg((N-df+0.5)/(df+0.5)) unclamped and zero-tf terms contributing
nothing; results are candidates, sorted by score descending, truncated to
the first k: their count is min k (number of candidates) and every candidate
left out scores no higher than any returned result.  The candidate set is
the union of the posting keys of the query terms. -/
theorem performSearch_bm25 (lg : ℚ → ℚ) (stem : String → String) (l2ok : Bool)
    (st : Index) (c : MultiLayerCache) (q : String) (k : Nat)
    (hinv : IndexInv st) (hco : TermCoherent st c) :
    (∀ r ∈ (performSearch lg stem l2ok st c q k).1,
        r.2 = bm25Score lg st (tokenDeduper (Tokenize stem q)) r.1 ∧
        r.1 ∈ candLoop st (tokenDeduper (Tokenize stem q))) ∧
    List.Pairwise (fun a b : String × ℚ => b.2 ≤ a.2) (performSearch lg stem l2ok st c q k).1 ∧
    (performSearch lg stem l2ok st c q k).1.length =
      min k (candLoop st (tokenDeduper (Tokenize stem q))).length ∧
    (∀ r ∈ (performSearch lg stem l2ok st c q k).1,
        ∀ d ∈ candLoop st (tokenDeduper (Tokenize stem q)),
          d ∉ (performSearch lg stem l2ok st c q k).1.map Prod.fst →
            bm25Score lg st (tokenDeduper (Tokenize stem q)) d ≤ r.2) ∧
    (∀ d, d ∈ candLoop st (tokenDeduper (Tokenize stem q)) ↔
        ∃ t ∈ tokenDeduper (Tokenize stem q), ∃ p, lookA st.index t = some p ∧ d ∈ keysA p) := by
  have hfold := candFold_eq l2ok st (tokenDeduper (Tokenize stem q)) [] c hco
  have hout : (performSearch lg stem l2ok st c q k).1 =
      (List.insertionSort scoreRel (scoreLoop lg st (tokenDeduper (Tokenize stem q))
        (candLoop st (tokenDeduper (Tokenize stem q))))).take k := by
    have h0 : (performSearch lg stem l2ok st c q k).1 =
        (List.insertionSort scoreRel (scoreLoop lg st (tokenDeduper (Tokenize stem q))
          (((tokenDeduper (Tokenize stem q)).foldl (candStep l2ok st) ([], c)).1))).take k := rfl
    rw [h0, hfold.1]
    rfl
  refine ⟨?_, ?_, ?_, ?_, fun d => mem_candLoop st (tokenDeduper (Tokenize stem q)) d⟩
  · intro r hr
    rw [hout] at hr
    have hr3 : r ∈ scoreLoop lg st (tokenDeduper (Tokenize stem q))
        (candLoop st (tokenDeduper (Tokenize stem q))) :=
      (mem_insertionSort_score _ _).mp (List.take_subset _ _ hr)
    exact ⟨scoreLoop_score lg st _ r hr3, scoreLoop_mem_cand lg st _ _ r hr3⟩
  · rw [hout]
    exact List.Pairwise.sublist (List.take_sublist _ _) (insertionSort_sorted_desc _)
  · rw [hout, List.length_take,
      (List.perm_insertionSort scoreRel _).length_eq,
      scoreLoop_length_eq lg st (tokenDeduper (Tokenize stem q)) hinv]
  · intro r hr d hd hdn
    have hkd : d ∈ keysA (scoreLoop lg st (tokenDeduper (Tokenize stem q))
        (candLoop st (tokenDeduper (Tokenize stem q)))) :=
      (scoreLoop_keys_iff_cand lg st _ hinv d).mpr hd
    obtain ⟨v, hv⟩ := (mem_keysA _ _).mp hkd
    have hscore : v = bm25Score lg st (tokenDeduper (Tokenize stem q)) d :=
      scoreLoop_score lg st _ (d, v) hv
    have hvm : (d, v) ∈ List.insertionSort scoreRel (scoreLoop lg st (tokenDeduper (Tokenize stem q))
        (candLoop st (tokenDeduper (Tokenize stem q)))) :=
      (mem_insertionSort_score _ _).mpr hv
    have hsort := insertionSort_sorted_desc (scoreLoop lg st (tokenDeduper (Tokenize stem q))
      (candLoop st (tokenDeduper (Tokenize stem q))))
    have hsplit := List.take_append_drop k (List.insertionSort scoreRel
      (scoreLoop lg st (tokenDeduper (Tokenize stem q))
        (candLoop st (tokenDeduper (Tokenize stem q)))))
    rw [← hsplit] at hsort hvm
    rcases List.mem_append.mp hvm with hin | hin
    · exfalso
      rw [hout] at hdn
      exact hdn (List.mem_map.mpr ⟨(d, v), hin, rfl⟩)
    · have hpp := (List.pairwise_append.mp hsort).2.2
      rw [hout] at hr
      have hle := hpp r hr (d, v) hin
      rw [hscore] at hle
      exact hle

/-- witness for C4: the one-document index with tokens cat dog cat, a fresh
cache, the identity stemmer and an arbitrary concrete logarithm. -/
theorem performSearch_bm25_witness :
    IndexInv searchState ∧ TermCoherent searchState (emptyCache 2000) ∧
    ((∀ r ∈ (performSearch (fun x => x) (fun s => s) true searchState (emptyCache 2000) "cat" 10).1,
        r.2 = bm25Score (fun x => x) searchState
          (tokenDeduper (Tokenize (fun s => s) "cat")) r.1 ∧
        r.1 ∈ candLoop searchState (tokenDeduper (Tokenize (fun s => s) "cat"))) ∧
    List.Pairwise (fun a b : String × ℚ => b.2 ≤ a.2)
      (performSearch (fun x => x) (fun s => s) true searchState (emptyCache 2000) "cat" 10).1 ∧
    (performSearch (fun x => x) (fun s => s) true searchState (emptyCache 2000) "cat" 10).1.length =
      min 10 (candLoop searchState (tokenDeduper (Tokenize (fun s => s) "cat"))).length ∧
    (∀ r ∈ (performSearch (fun x => x) (fun s => s) true searchState (emptyCache 2000) "cat" 10).1,
        ∀ d ∈ candLoop searchState (tokenDeduper (Tokenize (fun s => s) "cat")),
          d ∉ (performSearch (fun x => x) (fun s => s) true searchState (emptyCache 2000) "cat" 10).1.map Prod.fst →
            bm25Score (fun x => x) searchState
              (tokenDeduper (Tokenize (fun s => s) "cat")) d ≤ r.2) ∧
    (∀ d, d ∈ candLoop searchState (tokenDeduper (Tokenize (fun s => s) "cat")) ↔
        ∃ t ∈ tokenDeduper (Tokenize (fun s => s) "cat"), ∃ p,
          lookA searchState.index t = some p ∧ d ∈ keysA p)) :=
  ⟨inv_ingest [("A", ["cat", "dog", "cat"])] emptyIndex inv_empty,
    fun t p hm => by rcases hm with h | h | h <;> exact absurd h (List.not_mem_nil _),
    performSearch_bm25 (fun x => x) (fun s => s) true searchState (emptyCache 2000) "cat" 10
      (inv_ingest [("A", ["cat", "dog", "cat"])] emptyIndex inv_empty)
      (fun t p hm => by rcases hm with h | h | h <;> exact absurd h (List.not_mem_nil _))⟩

/-! ### Claim C2: docFreq counts the distinct posting documents -/

/-- C2: after any sequence of AddDocument calls on a fresh index, docFreq[t]
is the number of distinct docIDs with a postings list under t (the key list
is duplicate free and docFreq[t] is its length), and a term has a postings
entry iff it occurs in the token list of some ingested document (the calls
carrying the first occurrence of their docID). -/
theorem docFreq_matches_postings (calls : List (String × List String)) (t : String) :
    getA (ingest emptyIndex calls).docFreq t 0 =
      (keysA (getA (ingest emptyIndex calls).index t [])).length ∧
    (keysA (getA (ingest emptyIndex calls).index t [])).Nodup ∧
    ((lookA (ingest emptyIndex calls).index t).isSome ↔
      ∃ c ∈ firstCalls [] calls, t ∈ c.2) := by
  have hinv := inv_ingest calls emptyIndex inv_empty
  refine ⟨?_, hinv.inner_nodup t, ?_⟩
  · rw [hinv.freq_eq t]
    simp [keysA]
  · have hm := ingest_lookA_isSome calls emptyIndex [] inv_empty
      (by intro d2; simp [emptyIndex, lookA]) t
    simpa [emptyIndex, lookA] using hm

/-! ### Claim C3: positions are exactly the token offsets, strictly increasing -/

/-- C3: for a document d ingested by AddDocument(d, tokens) at any point of a
call sequence on a fresh index, the final positions list postings[t][d] is
exactly the list of 0-based offsets at which t occurs in tokens, in tokenizer
order; that list is strictly increasing, and its members are exactly the
offsets i with tokens[i] = t. -/
theorem postings_positions_exact (calls1 calls2 : List (String × List String))
    (d : String) (tokens : List String) (t : String)
    (h : lookA (ingest emptyIndex calls1).docLen d = none) :
    getA (getA (ingest (AddDocument (ingest emptyIndex calls1) d tokens) calls2).index t []) d []
        = offsetsOf tokens t ∧
    List.Sorted (· < ·) (offsetsOf tokens t) ∧
    (∀ i : Nat, i ∈ offsetsOf tokens t ↔ tokens[i]? = some t) := by
  have hinv := inv_ingest calls1 emptyIndex inv_empty
  have hc : CKey.doc d ∉ (ingest emptyIndex calls1).cache := by
    intro hcc
    have hs := (hinv.cache_eq d).mp hcc
    rw [h] at hs
    exact Bool.noConfusion hs
  have hinv2 := inv_addDocument (ingest emptyIndex calls1) d tokens hinv
  have hlen1 : (AddDocument (ingest emptyIndex calls1) d tokens).docLen =
      setA (ingest emptyIndex calls1).docLen d tokens.length := by
    rw [addDoc_effective (ingest emptyIndex calls1) d tokens hc h]
  have hsome : (lookA (AddDocument (ingest emptyIndex calls1) d tokens).docLen d).isSome := by
    rw [hlen1, lookA_setA_self]
    rfl
  refine ⟨?_, offsetsOf_sorted tokens t, fun i => offsetsOf_mem_iff tokens t i⟩
  rw [ingest_keeps_doc calls2 (AddDocument (ingest emptyIndex calls1) d tokens) hinv2 d hsome t]
  exact addDocument_positions (ingest emptyIndex calls1) d tokens t hinv h

/-! ### Claim C9: prefix suggestions truncate before sorting -/

theorem suggLoop_eq (pq : String) (maxN : Nat) (ks : List String) :
    ∀ acc : List String, acc.length < maxN →
      suggLoop pq maxN acc ks =
        (acc ++ ks.filter (fun t => isPrefixOfS pq t ∧ t ≠ pq)).take maxN := by
  induction ks with
  | nil =>
      intro acc hlen
      simp only [suggLoop, List.filter_nil, List.append_nil]
      rw [List.take_of_length_le (le_of_lt hlen)]
  | cons t ks ih =>
      intro acc hlen
      by_cases hm : isPrefixOfS pq t ∧ t ≠ pq
      · have hfc : (t :: ks).filter (fun t2 => isPrefixOfS pq t2 ∧ t2 ≠ pq) =
            t :: ks.filter (fun t2 => isPrefixOfS pq t2 ∧ t2 ≠ pq) := by
          simp [List.filter_cons, hm]
        rw [hfc]
        by_cases hstop : maxN ≤ (acc ++ [t]).length
        · have hlen2 : maxN = acc.length + 1 := by
            rw [List.length_append, List.length_singleton] at hstop
            omega
          have hgo : suggLoop pq maxN acc (t :: ks) = acc ++ [t] := by
            simp only [suggLoop, if_pos hm]
            rw [if_pos hstop]
          rw [hgo, hlen2]
          have hsp : acc ++ t :: ks.filter (fun t2 => isPrefixOfS pq t2 ∧ t2 ≠ pq) =
              (acc ++ [t]) ++ ks.filter (fun t2 => isPrefixOfS pq t2 ∧ t2 ≠ pq) := by
            simp [List.append_assoc]
          rw [hsp]
          have htk := @List.take_append String (acc ++ [t])
            (ks.filter (fun t2 => isPrefixOfS pq t2 ∧ t2 ≠ pq)) 0
          rw [List.take_zero, List.append_nil] at htk
          have hlen3 : acc.length + 1 = (acc ++ [t]).length + 0 := by
            simp
          rw [hlen3, htk]
        · have hgo : suggLoop pq maxN acc (t :: ks) = suggLoop pq maxN (acc ++ [t]) ks := by
            simp only [suggLoop, if_pos hm]
            rw [if_neg hstop]
          have hlt : (acc ++ [t]).length < maxN := by
            rw [List.length_append, List.length_singleton]
            rw [List.length_append, List.length_singleton] at hstop
            omega
          rw [hgo, ih (acc ++ [t]) hlt]
          simp [List.append_assoc]
      · have hfc : (t :: ks).filter (fun t2 => isPrefixOfS pq t2 ∧ t2 ≠ pq) =
            ks.filter (fun t2 => isPrefixOfS pq t2 ∧ t2 ≠ pq) := by
          simp [List.filter_cons, hm]
        have hgo : suggLoop pq maxN acc (t :: ks) = suggLoop pq maxN acc ks := by
          simp only [suggLoop, if_neg hm]
        rw [hgo, ih acc hlen, hfc]

theorem SuggestSimilar_eq (st : Index) (query : String) (n : Int)
    (h2 : 2 ≤ (toLowerS (trimS query)).utf8ByteSize) :
    SuggestSimilar st query n =
      List.insertionSort (freqRel st)
        ((((keysA st.index).filter (fun t =>
            isPrefixOfS (toLowerS (trimS query)) t ∧ t ≠ toLowerS (trimS query))).take
          (if n ≤ 0 then (5 : Int) else n).toNat)) := by
  have hpos : 0 < (if n ≤ 0 then (5 : Int) else n).toNat := by
    by_cases hn : n ≤ 0
    · rw [if_pos hn]
      decide
    · rw [if_neg hn]
      omega
  unfold SuggestSimilar
  rw [if_neg (by omega)]
  rw [suggLoop_eq _ _ _ [] (by simpa using hpos)]
  rw [List.nil_append]

/-- C9 corrected: a query shorter than two bytes (after trim and lowering)
yields the empty list; otherwise SuggestSimilar collects the FIRST maxN
matching terms in index order and only then sorts those collected terms by
document frequency descending — it agrees with the sort-all-then-truncate
reading of the spec exactly when at most maxN terms match. -/
theorem SuggestSimilar_amended (st : Index) (query : String) (n : Int) :
    ((toLowerS (trimS query)).utf8ByteSize < 2 → SuggestSimilar st query n = []) ∧
    (2 ≤ (toLowerS (trimS query)).utf8ByteSize →
      SuggestSimilar st query n =
        List.insertionSort (freqRel st)
          (((keysA st.index).filter (fun t =>
              isPrefixOfS (toLowerS (trimS query)) t ∧ t ≠ toLowerS (trimS query))).take
            (if n ≤ 0 then (5 : Int) else n).toNat) ∧
      (((keysA st.index).filter (fun t =>
            isPrefixOfS (toLowerS (trimS query)) t ∧ t ≠ toLowerS (trimS query))).length ≤
          (if n ≤ 0 then (5 : Int) else n).toNat →
        SuggestSimilar st query n =
          specSuggest st query (if n ≤ 0 then (5 : Int) else n).toNat)) := by
  constructor
  · intro h
    unfold SuggestSimilar
    rw [if_pos h]
  · intro h2
    refine ⟨SuggestSimilar_eq st query n h2, ?_⟩
    intro hall
    rw [SuggestSimilar_eq st query n h2, List.take_of_length_le hall]
    unfold specSuggest
    rw [List.take_of_length_le]
    rw [(List.perm_insertionSort (freqRel st) _).length_eq]
    exact hall

/-- counterexample for C9 as stated: with indexed terms abc (docFreq 1) and
abd (docFreq 2), query ab and maxN 1, the source returns [abc] — the first
match in index order — while sorting the whole match set by docFreq
descending and then truncating would return [abd]. -/
theorem SuggestSimilar_counterexample :
    SuggestSimilar suggState "ab" 1 = ["abc"] ∧
    specSuggest suggState "ab" 1 = ["abd"] ∧
    SuggestSimilar suggState "ab" 1 ≠ specSuggest suggState "ab" 1 := by
  refine ⟨by decide, by decide, by decide⟩

/-- witness for C9 amended at the same concrete state. -/
theorem SuggestSimilar_amended_witness :
    2 ≤ (toLowerS (trimS "ab")).utf8ByteSize ∧
    SuggestSimilar suggState "ab" 1 =
      List.insertionSort (freqRel suggState)
        ((((keysA suggState.index).filter (fun t =>
            isPrefixOfS (toLowerS (trimS "ab")) t ∧ t ≠ toLowerS (trimS "ab"))).take
          (if (1 : Int) ≤ 0 then (5 : Int) else 1).toNat)) :=
  ⟨by decide, ((SuggestSimilar_amended suggState "ab" 1).2 (by decide)).1⟩

/-- witness for C3: ingest the single document A with tokens cat dog cat;
the positions of cat are [0, 2]. -/
theorem postings_positions_exact_witness :
    lookA (ingest emptyIndex []).docLen "A" = none ∧
    (getA (getA (ingest (AddDocument (ingest emptyIndex []) "A" ["cat", "dog", "cat"]) []).index "cat" []) "A" []
        = offsetsOf ["cat", "dog", "cat"] "cat" ∧
      List.Sorted (· < ·) (offsetsOf ["cat", "dog", "cat"] "cat") ∧
      (∀ i : Nat, i ∈ offsetsOf ["cat", "dog", "cat"] "cat" ↔
        ["cat", "dog", "cat"][i]? = some "cat")) ∧
    offsetsOf ["cat", "dog", "cat"] "cat" = [0, 2] :=
  ⟨by decide,
    postings_positions_exact [] [] "A" ["cat", "dog", "cat"] "cat" (by decide),
    by decide⟩

/-- witness for C5 at a concrete state whose cache holds doc:<x> while x was
never indexed (docLen has no entry for it): the call is a no-op. -/
theorem AddDocument_cached_skips_witness :
    CKey.doc "x" ∈ ({ emptyIndex with cache := [CKey.doc "x"] } : Index).cache ∧
    lookA ({ emptyIndex with cache := [CKey.doc "x"] } : Index).docLen "x" = none ∧
    AddDocument { emptyIndex with cache := [CKey.doc "x"] } "x" ["a"] =
      { emptyIndex with cache := [CKey.doc "x"] } :=
  ⟨by decide, by decide,
    AddDocument_cached_skips { emptyIndex with cache := [CKey.doc "x"] } "x" ["a"]
      (by decide)⟩

/-! ### Claim C6: a non-200 response makes Crawl return a nil error -/

/-- C6: for any completed GET with status other than 200, Crawl stops — but
the error it returns is the stale nil err of the successful http.Get, so the
caller receives (nil links, nil error) instead of a failure. -/
theorem Crawl_non200 (status : Nat) (body : String) (readErr storeErr : Option String)
    (extract : Except String (List String)) (h : status ≠ 200) :
    Crawl (HTTPResult.response status body) readErr storeErr extract = (none, none) := by
  simp [Crawl, h]

/-- witness for C6 at the concrete failing input: a 404 response yields no
links and, contrary to the spec, a nil error. -/
theorem Crawl_non200_witness :
    (404 : Nat) ≠ 200 ∧
    Crawl (HTTPResult.response 404 "") none none (Except.ok []) = (none, none) :=
  ⟨by decide, Crawl_non200 404 "" none none (Except.ok []) (by decide)⟩

/-! ### Claim C7: the extracted set keeps the empty normalization -/

theorem mem_foldl_insKey (f : String → String) (l : List String) :
    ∀ (acc : List String) (u : String),
      (u ∈ l.foldl (fun acc2 raw => insKey acc2 (f raw)) acc ↔
        u ∈ acc ∨ ∃ raw ∈ l, f raw = u) := by
  induction l with
  | nil => intro acc u; simp
  | cons r rest ih =>
      intro acc u
      rw [List.foldl_cons, ih, mem_insKey]
      constructor
      · rintro ((ha | he) | ⟨raw, hraw, hf⟩)
        · exact Or.inl ha
        · exact Or.inr ⟨r, List.mem_cons_self _ _, he.symm⟩
        · exact Or.inr ⟨raw, List.mem_cons_of_mem _ hraw, hf⟩
      · rintro (ha | ⟨raw, hraw, hf⟩)
        · exact Or.inl (Or.inl ha)
        · rcases List.mem_cons.mp hraw with he | hm
          · subst he
            exact Or.inl (Or.inr hf.symm)
          · exact Or.inr ⟨raw, hm, hf⟩

/-- C7 corrected: the extracted set consists of exactly the
preprocessRawURL-normalizations of the href values the pre-order traversal
visits — including the empty string that an empty or invalid href
normalizes to, which the visitor inserts rather than drops. -/
theorem URLExtractor_mem (parse : String → Option URLParts) (render : URLParts → String)
    (resolve : URLParts → URLParts → URLParts) (root : HNode) (baseURL : String)
    (u : String) :
    u ∈ URLExtractor parse render resolve root baseURL ↔
      ∃ raw ∈ hrefsOf root, preprocessRawURL parse render resolve raw baseURL = u := by
  unfold URLExtractor
  rw [mem_foldl_insKey]
  simp

/-- counterexample for C7 as stated: a single anchor with an empty href —
the empty string IS a member of the extracted set, although the claim says
empty or failed normalizations are absent. -/
theorem URLExtractor_counterexample :
    "" ∈ URLExtractor (fun _ => none) (fun _ => "") (fun _ u => u)
      (HNode.node true [("href", "")] []) "http://e.com" := by
  unfold URLExtractor
  rw [mem_foldl_insKey]
  refine Or.inr ⟨"", ?_, ?_⟩
  · simp [hrefsOf]
  · rfl

/-- equation lemma for Search: a query-payload hit in the L1 tier returns
the cached results, touches the LRU order, and bumps only L1Hits. -/
theorem Search_l1_query_hit (lg : ℚ → ℚ) (stem : String → String) (l2ok : Bool)
    (st : Index) (c : MultiLayerCache) (q : String) (k : Nat)
    (rs : List (String × ℚ))
    (h : lookA c.l1Cache (CKey.query q) = some (CPayload.query rs)) :
    Search lg stem l2ok st c q k =
      (rs, { c with l1Order := moveToFront c.l1Order (CKey.query q)
                    stats := { c.stats with l1Hits := c.stats.l1Hits + 1 } }) := by
  simp only [Search, MultiLayerCache.GetQueryResult,
    Get_l1_hit l2ok c (CKey.query q) (CPayload.query rs) h]

/-- C8 (amended): Search caches its results under query:<q> in L3 AND in L1
(SetQueryResult writes both tiers), so an immediately repeated Search is
served from the L1 tier, not from L3: it returns the same results,
increments L1Hits by one, and leaves L3Hits unchanged — the observable the
spec predicts (an L3Hits increment) never occurs on the repeat. -/
theorem Search_repeat_from_L1 (lg : ℚ → ℚ) (stem : String → String) (l2ok : Bool)
    (st : Index) (c : MultiLayerCache) (q : String) (k : Nat)
    (hwf : L1WF c) (hmax : 0 < c.l1MaxSize) :
    (Search lg stem l2ok st (Search lg stem l2ok st c q k).2 q k).1
        = (Search lg stem l2ok st c q k).1 ∧
      (Search lg stem l2ok st (Search lg stem l2ok st c q k).2 q k).2.stats.l1Hits
        = (Search lg stem l2ok st c q k).2.stats.l1Hits + 1 ∧
      (Search lg stem l2ok st (Search lg stem l2ok st c q k).2 q k).2.stats.l3Hits
        = (Search lg stem l2ok st c q k).2.stats.l3Hits := by
  obtain ⟨hwf1, hlook, hmax1⟩ := Search_establishes lg stem l2ok st c q k hwf hmax
  rw [Search_l1_query_hit lg stem l2ok st _ q k _ hlook]
  exact ⟨rfl, rfl, rfl⟩

/-- witness for C8 at a concrete state: a fresh 1000-entry cache and an
empty index, query foo, top 5. -/
theorem Search_repeat_from_L1_witness :
    L1WF (emptyCache 1000) ∧ 0 < (emptyCache 1000).l1MaxSize ∧
      ((Search (fun _ => 0) (fun s => s) true emptyIndex
          (Search (fun _ => 0) (fun s => s) true emptyIndex
            (emptyCache 1000) "foo" 5).2 "foo" 5).1
        = (Search (fun _ => 0) (fun s => s) true emptyIndex
            (emptyCache 1000) "foo" 5).1 ∧
      (Search (fun _ => 0) (fun s => s) true emptyIndex
          (Search (fun _ => 0) (fun s => s) true emptyIndex
            (emptyCache 1000) "foo" 5).2 "foo" 5).2.stats.l1Hits
        = (Search (fun _ => 0) (fun s => s) true emptyIndex
            (emptyCache 1000) "foo" 5).2.stats.l1Hits + 1 ∧
      (Search (fun _ => 0) (fun s => s) true emptyIndex
          (Search (fun _ => 0) (fun s => s) true emptyIndex
            (emptyCache 1000) "foo" 5).2 "foo" 5).2.stats.l3Hits
        = (Search (fun _ => 0) (fun s => s) true emptyIndex
            (emptyCache 1000) "foo" 5).2.stats.l3Hits) :=
  ⟨⟨List.nodup_nil, List.Perm.nil⟩, by decide,
    Search_repeat_from_L1 (fun _ => 0) (fun s => s) true emptyIndex
      (emptyCache 1000) "foo" 5 ⟨List.nodup_nil, List.Perm.nil⟩ (by decide)⟩

/-- counterexample for C8 as stated: searching foo twice on a fresh index
and cache.  The repeated call leaves the L3Hits counter untouched — the
repeat is answered out of L1, whose hit counter increments instead, so the
claimed observable (an L3Hits increment) is absent. -/
theorem Search_repeat_counterexample :
    ((Search (fun _ => 0) (fun s => s) true emptyIndex
        (Search (fun _ => 0) (fun s => s) true emptyIndex
          (emptyCache 1000) "foo" 5).2 "foo" 5).2.stats.l3Hits
      = (Search (fun _ => 0) (fun s => s) true emptyIndex
          (emptyCache 1000) "foo" 5).2.stats.l3Hits) ∧
    ((Search (fun _ => 0) (fun s => s) true emptyIndex
        (Search (fun _ => 0) (fun s => s) true emptyIndex
          (emptyCache 1000) "foo" 5).2 "foo" 5).2.stats.l1Hits
      = (Search (fun _ => 0) (fun s => s) true emptyIndex
          (emptyCache 1000) "foo" 5).2.stats.l1Hits + 1) := by
  decide

/-- C10: Set never surfaces an error — its second component is nil whatever
the L2 write does (the l2ok oracle covers marshalling and disk failures,
which are only logged), and the entry is nonetheless stored in L1, where a
lookup finds it. -/
theorem Set_always_nil (l2ok : Bool) (c : MultiLayerCache) (k : CKey) (v : CPayload)
    (hwf : L1WF c) (hmax : 0 < c.l1MaxSize) :
    (MultiLayerCache.Set l2ok c k v).2 = none ∧
      lookA (MultiLayerCache.Set l2ok c k v).1.l1Cache k = some v := by
  refine ⟨rfl, ?_⟩
  show lookA (MultiLayerCache.setToL2 l2ok (c.setToL1 k v) k v).1.l1Cache k = some v
  rw [setToL2_l1]
  exact (setToL1_wf c k v hwf hmax).2

/-- witness for C10 with a failing L2 write (l2ok = false): Set still
returns nil and the entry is found in L1. -/
theorem Set_always_nil_witness :
    L1WF (emptyCache 1000) ∧ 0 < (emptyCache 1000).l1MaxSize ∧
      ((MultiLayerCache.Set false (emptyCache 1000) (CKey.term "x")
          (CPayload.postings [])).2 = none ∧
        lookA (MultiLayerCache.Set false (emptyCache 1000) (CKey.term "x")
          (CPayload.postings [])).1.l1Cache (CKey.term "x")
          = some (CPayload.postings [])) :=
  ⟨⟨List.nodup_nil, List.Perm.nil⟩, by decide,
    Set_always_nil false (emptyCache 1000) (CKey.term "x") (CPayload.postings [])
      ⟨List.nodup_nil, List.Perm.nil⟩ (by decide)⟩

end IndexStream

